import Mathlib

/-!
Password strength analyser: embedding and verified properties.

Shallow embedding of `src/PasswordStrengthAnalyser.cpp`.

* A `std::string` is a list of bytes; every byte is read through
  `static_cast<unsigned char>`, so a byte is a value below 256.
* `int` arithmetic is done in `Int`; a signed overflow, an out-of-range
  `operator[]` and a division by zero are undefined behaviour in C++ and are
  modelled as the failure `none`.
* `rand()` is an explicit stream of non-negative values threaded through the
  generator.
-/

set_option maxRecDepth 8000

namespace PasswordAnalyser

/-! ## Strings -/

/-- One `char` of a `std::string`, seen through `static_cast<unsigned char>`. -/
abbrev Byte := Fin 256

/-- The contents of a `std::string`. -/
abbrev Bytes := List Byte

/-- The bytes of an ASCII string literal of the source. -/
def lit (s : String) : Bytes := s.toList.map fun c => Fin.ofNat c.toNat

/-! ## PasswordHashTable -/

/-- Largest value of the C++ type `int` (32 bits). -/
def INT_MAX : Int := 2147483647

/-- One round of the loop body of `hashFunction`:
`hash = (hash * 31 + static_cast<unsigned char>(c)) % capacity`.
The sum is computed in `int`; when it leaves the range of `int`, or when
`capacity` is zero, the behaviour is undefined and the step fails. The operator
`%` of C++ truncates towards zero. -/
def hashStep (capacity : Int) (hash : Int) (c : Byte) : Option Int :=
  let v := hash * 31 + (c.val : Int)
  if v ≤ INT_MAX ∧ -INT_MAX - 1 ≤ v ∧ capacity ≠ 0 then some (Int.tmod v capacity) else none

/-- The loop `for (char c : password)` of `hashFunction`, started at `hash`. -/
def hashLoop (capacity : Int) : Int → Bytes → Option Int
  | hash, [] => some hash
  | hash, c :: rest =>
    match hashStep capacity hash c with
    | none => none
    | some h => hashLoop capacity h rest

/-- The method `PasswordHashTable::hashFunction`. -/
def hashFunction (capacity : Int) (password : Bytes) : Option Int :=
  hashLoop capacity 0 password

/-- The class `PasswordHashTable`. The vector `table` of `capacity` bucket heads
is a map from the indices `0 ≤ i < capacity` to chains; a chain is the list of
the `password` fields met by following `next` from the head. -/
structure PasswordHashTable where
  table : Int → List Bytes
  capacity : Int

/-- The constructor `PasswordHashTable(int cap = 100)`: every bucket is `nullptr`. -/
def PasswordHashTable.new (cap : Int) : PasswordHashTable :=
  { table := fun _ => [], capacity := cap }

/-- The access `table[index]` is defined for `0 ≤ index < capacity` only. -/
def PasswordHashTable.inRange (t : PasswordHashTable) (index : Int) : Bool :=
  decide (0 ≤ index) && decide (index < t.capacity)

/-- The method `PasswordHashTable::addPassword`: the new node becomes the head of
its bucket. -/
def PasswordHashTable.addPassword (t : PasswordHashTable) (password : Bytes) :
    Option PasswordHashTable :=
  if password.isEmpty then some t
  else
    match hashFunction t.capacity password with
    | none => none
    | some index =>
      if t.inRange index then
        some { t with table := fun i => if i = index then password :: t.table index else t.table i }
      else none

/-- The loop `while (current != nullptr)` of `contains`, over one chain. -/
def chainContains (password : Bytes) : List Bytes → Bool
  | [] => false
  | p :: next => if p = password then true else chainContains password next

/-- The method `PasswordHashTable::contains`. -/
def PasswordHashTable.contains (t : PasswordHashTable) (password : Bytes) : Option Bool :=
  if password.isEmpty then some false
  else
    match hashFunction t.capacity password with
    | none => none
    | some index =>
      if t.inRange index then some (chainContains password (t.table index)) else none

/-- A sequence of `addPassword` calls, in order. -/
def PasswordHashTable.addAll : PasswordHashTable → List Bytes → Option PasswordHashTable
  | t, [] => some t
  | t, p :: rest =>
    match t.addPassword p with
    | none => none
    | some t1 => addAll t1 rest

/-! ## DictionaryTrie -/

/-- The struct `TrieNode`: 128 child pointers (`none` is `nullptr`) and the
flag `isEndOfWord`. -/
inductive TrieNode where
  | mk (children : Fin 128 → Option TrieNode) (isEndOfWord : Bool)

/-- The field `children`. -/
def TrieNode.children : TrieNode → Fin 128 → Option TrieNode
  | .mk ch _ => ch

/-- The field `isEndOfWord`. -/
def TrieNode.isEndOfWord : TrieNode → Bool
  | .mk _ e => e

/-- The constructor `TrieNode()`: `children(128, nullptr), isEndOfWord(false)`. -/
def TrieNode.new : TrieNode := .mk (fun _ => none) false

/-- The loop `for (char c : word)` of `insert` followed by
`current->isEndOfWord = true`, run from the node `current`; the result is the
subtree of `current` after the call. -/
def TrieNode.insertLoop : TrieNode → Bytes → TrieNode
  | .mk ch _, [] => .mk ch true
  | .mk ch e, c :: rest =>
    if h : c.val < 128 then
      let child := match ch ⟨c.val, h⟩ with
        | none => TrieNode.new
        | some n => n
      .mk (fun i => if i = ⟨c.val, h⟩ then some (insertLoop child rest) else ch i) e
    else insertLoop (.mk ch e) rest

/-- The class `DictionaryTrie`. -/
structure DictionaryTrie where
  root : TrieNode

/-- The constructor `DictionaryTrie()`. -/
def DictionaryTrie.new : DictionaryTrie := { root := TrieNode.new }

/-- The method `DictionaryTrie::insert`. -/
def DictionaryTrie.insert (t : DictionaryTrie) (word : Bytes) : DictionaryTrie :=
  if word.isEmpty then t else { root := t.root.insertLoop word }

/-- The inner loop `for (size_t j = i; j < password.length(); j++)` of
`findWordsInPassword`: `rest` is `password[j..]`. -/
def scanFrom : TrieNode → Bytes → Bytes → List Bytes → List Bytes
  | _, _, [], foundWords => foundWords
  | current, currentWord, c :: rest, foundWords =>
    if h : c.val < 128 then
      match current.children ⟨c.val, h⟩ with
      | none => foundWords
      | some next =>
        let currentWord1 := currentWord ++ [c]
        scanFrom next currentWord1 rest
          (if next.isEndOfWord && decide (3 ≤ currentWord1.length) then
            foundWords ++ [currentWord1]
          else foundWords)
    else foundWords

/-- The outer loop `for (size_t i = 0; i < password.length(); i++)` of
`findWordsInPassword`: `suffix` is `password[i..]`. -/
def scanAll (root : TrieNode) : Bytes → List Bytes → List Bytes
  | [], foundWords => foundWords
  | c :: rest, foundWords => scanAll root rest (scanFrom root [] (c :: rest) foundWords)

/-- The method `DictionaryTrie::findWordsInPassword`. -/
def DictionaryTrie.findWordsInPassword (t : DictionaryTrie) (password : Bytes) : List Bytes :=
  if password.isEmpty then [] else scanAll t.root password []

/-- A trie after `insert` of each word of a list, in order. -/
def DictionaryTrie.insertAll (t : DictionaryTrie) (words : List Bytes) : DictionaryTrie :=
  words.foldl DictionaryTrie.insert t

/-- The literal `commonWords` of `initializeDictionary`. -/
def commonWords : List Bytes :=
  [lit "password", lit "admin", lit "user", lit "login", lit "secret",
   lit "hello", lit "welcome", lit "qwerty", lit "keyboard", lit "computer",
   lit "system", lit "account", lit "access", lit "security", lit "network"]

/-- The method `initializeDictionary`, on the member `dictionary`. -/
def initializeDictionary (dictionary : DictionaryTrie) : DictionaryTrie :=
  dictionary.insertAll commonWords

/-! ## PasswordGenerator -/

/-- The state of `rand()`: the stream of the values it returns (an `int` in
`0 .. RAND_MAX`, so a natural number) and the number of calls made so far. -/
structure RandState where
  seq : Nat → Nat
  pos : Nat

/-- One call of `rand()`. -/
def rand (r : RandState) : Nat × RandState :=
  (r.seq r.pos, { r with pos := r.pos + 1 })

/-- The member `uppercase`. -/
def uppercase : Bytes := lit "ABCDEFGHIJKLMNOPQRSTUVWXYZ"

/-- The member `lowercase`. -/
def lowercase : Bytes := lit "abcdefghijklmnopqrstuvwxyz"

/-- The member `digits`. -/
def digits : Bytes := lit "0123456789"

/-- The member `special`. -/
def special : Bytes := lit "!@#$%^&*()-_=+"

/-- The conversion of an `int` to `size_t` (64 bits), as in the comparison
`password.length() < length`. -/
def toSizeT (n : Int) : Nat := (n % 18446744073709551616).toNat

/-- The conversion of a `size_t` to `int` (32 bits, two's complement), as in
`int i = vec.size() - 1`. -/
def toInt (n : Nat) : Int :=
  let m : Int := (n : Int) % 4294967296
  if m ≤ INT_MAX then m else m - 4294967296

/-- The call `std::swap(vec[i], vec[j])`; an index outside the vector is
undefined behaviour. -/
def swapAt (vec : Bytes) (i j : Nat) : Option Bytes :=
  match vec[i]?, vec[j]? with
  | some a, some b => some ((vec.set i b).set j a)
  | _, _ => none

/-- The loop `for (int i = ...; i > 0; i--)` of `shuffleVector`, entered with the
value `i`; `i + 1` must not overflow `int`. -/
def shuffleLoop : Nat → Bytes → RandState → Option (Bytes × RandState)
  | 0, vec, r => some (vec, r)
  | i + 1, vec, r =>
    if ((i + 1 : Nat) : Int) + 1 ≤ INT_MAX then
      let (v, r1) := rand r
      match swapAt vec (i + 1) (v % (i + 1 + 1)) with
      | none => none
      | some vec1 => shuffleLoop i vec1 r1
    else none

/-- The method `PasswordGenerator::shuffleVector`. The start value is
`vec.size() - 1`, computed in `size_t` and converted to `int`; the loop does not
run when it is not positive. -/
def shuffleVector (vec : Bytes) (r : RandState) : Option (Bytes × RandState) :=
  shuffleLoop (toInt ((vec.length + 18446744073709551615) % 18446744073709551616)).toNat vec r

/-- The expression `pool[rand() % pool.size()]`. -/
def pick (pool : Bytes) (r : RandState) : Option (Byte × RandState) :=
  if pool.length = 0 then none
  else
    let (v, r1) := rand r
    match pool[v % pool.length]? with
    | none => none
    | some c => some (c, r1)

/-- The loop `while (password.length() < length)` of `generateStrongPassword`,
where `length` is already converted to `size_t`. Every round makes the password
one character longer, so the loop runs at most `length - password.length()`
rounds; the first argument counts the rounds still allowed, and the loop is left
through its condition only. -/
def fillLoop (allChars : Bytes) (length : Nat) :
    Nat → Bytes → RandState → Option (Bytes × RandState)
  | 0, password, r => if password.length < length then none else some (password, r)
  | rounds + 1, password, r =>
    if password.length < length then
      match pick allChars r with
      | none => none
      | some (c, r1) => fillLoop allChars length rounds (password ++ [c]) r1
    else some (password, r)

/-- The method `PasswordGenerator::generateStrongPassword`. The model puts no
bound on the size of a string. -/
def generateStrongPassword (length : Int) (r : RandState) : Option (Bytes × RandState) := do
  let password : Bytes := []
  let (c1, r) ← pick uppercase r
  let password := password ++ [c1]
  let (c2, r) ← pick lowercase r
  let password := password ++ [c2]
  let (c3, r) ← pick digits r
  let password := password ++ [c3]
  let (c4, r) ← pick special r
  let password := password ++ [c4]
  let allChars : Bytes := uppercase ++ lowercase ++ digits ++ special
  let (allChars, r) ← shuffleVector allChars r
  let (password, r) ← fillLoop allChars (toSizeT length) (toSizeT length - password.length)
    password r
  shuffleVector password r

/-! ## PasswordStrengthAnalyser -/

/-- The function `std::isupper` in the "C" locale (the program never changes the
locale). -/
def isupper (c : Byte) : Bool := decide (65 ≤ c.val) && decide (c.val ≤ 90)

/-- The function `std::islower` in the "C" locale. -/
def islower (c : Byte) : Bool := decide (97 ≤ c.val) && decide (c.val ≤ 122)

/-- The function `std::isdigit`. -/
def isdigit (c : Byte) : Bool := decide (48 ≤ c.val) && decide (c.val ≤ 57)

/-- The function `std::isalpha` in the "C" locale. -/
def isalpha (c : Byte) : Bool := isupper c || islower c

/-- The struct `StrengthResult`. -/
structure StrengthResult where
  score : Int
  strength : String
  feedback : List String
  deriving DecidableEq

/-- The literal `weakPasswords` of `initializeCommonPasswords`. -/
def weakPasswords : List Bytes :=
  [lit "password", lit "123456", lit "password123", lit "admin", lit "qwerty",
   lit "letmein", lit "welcome", lit "monkey", lit "sunshine", lit "password1",
   lit "12345678", lit "123456789", lit "12345", lit "1234567", lit "1234567890",
   lit "abc123", lit "football", lit "master", lit "hello", lit "freedom"]

/-- The method `initializeCommonPasswords`, on the member `commonPasswords`. -/
def initializeCommonPasswords (commonPasswords : PasswordHashTable) : Option PasswordHashTable :=
  commonPasswords.addAll weakPasswords

/-- The class `PasswordStrengthAnalyser`. -/
structure PasswordStrengthAnalyser where
  commonPasswords : PasswordHashTable
  dictionary : DictionaryTrie

/-- The constructor `PasswordStrengthAnalyser()`, after the default construction
of the two members. -/
def PasswordStrengthAnalyser.new : Option PasswordStrengthAnalyser :=
  match initializeCommonPasswords (PasswordHashTable.new 100) with
  | none => none
  | some commonPasswords =>
    some { commonPasswords := commonPasswords,
           dictionary := initializeDictionary DictionaryTrie.new }

/-- The section `// Length check`. -/
def lengthCheck (password : Bytes) (result : StrengthResult) : StrengthResult :=
  if 16 ≤ password.length then
    { result with score := result.score + 4,
                  feedback := result.feedback ++ ["✓ Excellent password length (16+ characters)"] }
  else if 12 ≤ password.length then
    { result with score := result.score + 3,
                  feedback := result.feedback ++ ["✓ Good password length (12+ characters)"] }
  else if 8 ≤ password.length then
    { result with score := result.score + 2,
                  feedback := result.feedback ++ ["✓ Acceptable password length (8+ characters)"] }
  else
    { result with feedback :=
        result.feedback ++ ["✗ Password too short (minimum 8 characters recommended)"] }

/-- The four flags `hasUpper`, `hasLower`, `hasDigit`, `hasSpecial`. -/
structure Variety where
  hasUpper : Bool
  hasLower : Bool
  hasDigit : Bool
  hasSpecial : Bool
  deriving DecidableEq

/-- The loop `for (char c : password)` of the section `// Character variety`. -/
def varietyLoop : Variety → Bytes → Variety
  | v, [] => v
  | v, c :: rest =>
    if isupper c then varietyLoop { v with hasUpper := true } rest
    else if islower c then varietyLoop { v with hasLower := true } rest
    else if isdigit c then varietyLoop { v with hasDigit := true } rest
    else varietyLoop { v with hasSpecial := true } rest

/-- The three `if` statements of the section `// Character variety`. -/
def varietyCheck (v : Variety) (result : StrengthResult) : StrengthResult :=
  let result : StrengthResult :=
    if v.hasUpper && v.hasLower then
      { result with score := result.score + 1,
                    feedback := result.feedback ++ ["✓ Contains both uppercase and lowercase letters"] }
    else
      { result with feedback :=
          result.feedback ++ ["✗ Include both uppercase and lowercase letters"] }
  let result : StrengthResult :=
    if v.hasDigit then
      { result with score := result.score + 1,
                    feedback := result.feedback ++ ["✓ Contains numbers"] }
    else { result with feedback := result.feedback ++ ["✗ Include numbers"] }
  if v.hasSpecial then
    { result with score := result.score + 2,
                  feedback := result.feedback ++ ["✓ Contains special characters"] }
  else { result with feedback := result.feedback ++ ["✗ Include special characters"] }

/-- The section `// Check common passwords`, given the value of
`commonPasswords.contains(password)`. -/
def commonCheck (isCommon : Bool) (result : StrengthResult) : StrengthResult :=
  if isCommon then
    { result with score := 0,
                  feedback := result.feedback ++ ["✗ This is a very common password"] }
  else result

/-- The loop of the section `// Dictionary word check` that sets `hasLetters`. -/
def hasLettersLoop : Bytes → Bool
  | [] => false
  | c :: rest => if isalpha c then true else hasLettersLoop rest

/-- The statement `if (hasLetters) ...` of the section `// Dictionary word check`. -/
def dictionaryCheck (dictionary : DictionaryTrie) (password : Bytes) (result : StrengthResult) :
    StrengthResult :=
  if hasLettersLoop password then
    let dictionaryWords := dictionary.findWordsInPassword password
    if !dictionaryWords.isEmpty then
      { result with score := max 0 (result.score - 2),
                    feedback := result.feedback ++ ["✗ Avoid using dictionary words"] }
    else result
  else result

/-- The section `// Long password bonus`. -/
def longBonus (password : Bytes) (result : StrengthResult) : StrengthResult :=
  if 20 < password.length then
    { result with score := result.score + 2,
                  feedback := result.feedback ++ ["✓ Bonus for very long password"] }
  else result

/-- The section `// Determine strength`. -/
def determineStrength (result : StrengthResult) : StrengthResult :=
  if 9 ≤ result.score then { result with strength := "Very Strong" }
  else if 7 ≤ result.score then { result with strength := "Strong" }
  else if 5 ≤ result.score then { result with strength := "Moderate" }
  else if 3 ≤ result.score then { result with strength := "Weak" }
  else { result with strength := "Very Weak" }

/-- The method `PasswordStrengthAnalyser::analysePassword`. -/
def PasswordStrengthAnalyser.analysePassword (a : PasswordStrengthAnalyser) (password : Bytes) :
    Option StrengthResult :=
  let result : StrengthResult := { score := 0, strength := "", feedback := [] }
  if password.isEmpty then
    some { result with strength := "Very Weak",
                       feedback := result.feedback ++ ["✗ Password cannot be empty"] }
  else
    let result := lengthCheck password result
    let v := varietyLoop
      { hasUpper := false, hasLower := false, hasDigit := false, hasSpecial := false } password
    let result := varietyCheck v result
    match a.commonPasswords.contains password with
    | none => none
    | some isCommon =>
      let result := commonCheck isCommon result
      let result := dictionaryCheck a.dictionary password result
      let result := longBonus password result
      some (determineStrength result)

/-- The analysis of a password by a freshly constructed analyser, as in `main`. -/
def analyse (password : Bytes) : Option StrengthResult :=
  match PasswordStrengthAnalyser.new with
  | none => none
  | some a => a.analysePassword password

/-- A fixed stream for `rand()`, used to run the generator on an example. -/
def sampleRand : RandState := { seq := fun k => 7919 * k + 13, pos := 0 }

/-! ## Specification-side definitions -/

/-- The buckets of `t` hold exactly the non-empty strings of `added`, each in the
bucket of its hash, and `t` has capacity `cap`. -/
def PasswordHashTable.Holds (t : PasswordHashTable) (cap : Int) (added : List Bytes) : Prop :=
  t.capacity = cap ∧
    ∀ (s : Bytes) (idx : Int),
      s ∈ t.table idx ↔ (s ≠ [] ∧ s ∈ added ∧ hashFunction cap s = some idx)

/-- The node reached from `n` along the bytes of `p`, when every edge exists. -/
def TrieNode.walk : TrieNode → Bytes → Option TrieNode
  | n, [] => some n
  | n, c :: rest =>
    if h : c.val < 128 then
      match n.children ⟨c.val, h⟩ with
      | none => none
      | some m => walk m rest
    else none

/-- The path `p` exists from `n` and ends on a node flagged `isEndOfWord`. -/
def TrieNode.accepts (n : TrieNode) (p : Bytes) : Bool :=
  match n.walk p with
  | none => false
  | some m => m.isEndOfWord

/-- The extensions `currentWord ++ rest[0..k)`, `k = 1, 2, ...` in this order,
that have at least 3 bytes and whose part `rest[0..k)` satisfies `acc`. -/
def prefixHits (acc : Bytes → Bool) : Bytes → Bytes → List Bytes
  | _, [] => []
  | currentWord, c :: rest =>
    (if acc [c] && decide (3 ≤ (currentWord ++ [c]).length) then [currentWord ++ [c]] else [])
      ++ prefixHits (fun p => acc (c :: p)) (currentWord ++ [c]) rest

/-- The hits of `prefixHits` from every start offset of a string, in order. -/
def suffixHits (acc : Bytes → Bool) : Bytes → List Bytes
  | [] => []
  | c :: rest => prefixHits acc [] (c :: rest) ++ suffixHits acc rest

/-- The naive enumeration of the specification: all substrings `c[i..i+k)` with
`k ≥ 3` that are members of `W`, by start offset `i` ascending and, for one start
offset, by length `k` ascending, one entry for each occurrence. -/
def naiveFind (W : List Bytes) (c : Bytes) : List Bytes :=
  (List.range c.length).flatMap fun i =>
    ((List.range (c.length - i + 1)).filter fun k =>
        decide (3 ≤ k) && decide ((c.drop i).take k ∈ W)).map
      fun k => (c.drop i).take k

/-- The values of `hash * 31 + static_cast<unsigned char>(c)` computed by the
rounds of `hashFunction`, before the reduction modulo `capacity`, for the loop
started at `hash`. -/
def hashIntermediates (capacity : Int) : Int → Bytes → List Int
  | _, [] => []
  | hash, c :: rest =>
    (hash * 31 + (c.val : Int)) ::
      hashIntermediates capacity (Int.tmod (hash * 31 + (c.val : Int)) capacity) rest

/-- The indices `uc` of the accesses `current->children[uc]` made by `insert` on a
word: a byte reaches the access only after the test `if (uc >= 128) continue`. -/
def insertIndices : Bytes → List Nat
  | [] => []
  | c :: rest => if c.val < 128 then c.val :: insertIndices rest else insertIndices rest

/-- The indices `uc` of the accesses `current->children[uc]` made by the inner loop
of `findWordsInPassword`: in `uc >= 128 || current->children[uc] == nullptr` the
access is evaluated only when `uc >= 128` is false. -/
def scanFromIndices : TrieNode → Bytes → List Nat
  | _, [] => []
  | current, c :: rest =>
    if h : c.val < 128 then
      c.val :: (match current.children ⟨c.val, h⟩ with
        | none => []
        | some next => scanFromIndices next rest)
    else []

/-- The indices of all accesses `current->children[uc]` of `findWordsInPassword`. -/
def scanAllIndices (root : TrieNode) : Bytes → List Nat
  | [] => []
  | c :: rest => scanFromIndices root (c :: rest) ++ scanAllIndices root rest

/-- The loop of `shuffleVector` entered with the value `i`, with the swap indices
`j` of its rounds given as a list (first the one used with `i`, last the one used
with 1) in place of `rand() % (i + 1)`. -/
def shuffleBy : Nat → List Nat → Bytes → Option Bytes
  | 0, _, vec => some vec
  | _ + 1, [], _ => none
  | i + 1, j :: js, vec =>
    match swapAt vec (i + 1) j with
    | none => none
    | some vec1 => shuffleBy i js vec1

/-- The list `js` gives one swap index for each value `i, i - 1, ..., 1` of the loop
variable, each between 0 and that value. -/
def validIndices : Nat → List Nat → Bool
  | 0, [] => true
  | 0, _ :: _ => false
  | _ + 1, [] => false
  | i + 1, j :: js => decide (j ≤ i + 1) && validIndices i js

/-- The swap indices `rand() % (i + 1)` drawn by the loop of `shuffleVector` entered
with the value `i` and the state `r` of `rand()`. -/
def drawnIndices : Nat → RandState → List Nat
  | 0, _ => []
  | i + 1, r => ((rand r).1 % (i + 1 + 1)) :: drawnIndices i (rand r).2

/-- One of the 15 dictionary words occurs in `p` as a contiguous substring, byte
for byte. -/
def embedsDictionaryWord (p : Bytes) : Prop := ∃ w ∈ commonWords, w <:+: p

/-- Whether a dictionary word occurs in `p` can be computed. -/
instance embedsDictionaryWord_decidable (p : Bytes) : Decidable (embedsDictionaryWord p) := by
  unfold embedsDictionaryWord
  infer_instance

/-- The result of `analysePassword` on `password` when it reaches the section
`// Dictionary word check`: after the length check, the character variety and the
common-password check. -/
def resultBeforeDictionary (password : Bytes) : StrengthResult :=
  commonCheck (decide (password ∈ weakPasswords))
    (varietyCheck
      (varietyLoop
        { hasUpper := false, hasLower := false, hasDigit := false, hasSpecial := false }
        password)
      (lengthCheck password { score := 0, strength := "", feedback := [] }))

/-- The dictionary penalty: `score = max(0, score - 2)` and the warning line. -/
def dictionaryPenalty (result : StrengthResult) : StrengthResult :=
  { result with score := max 0 (result.score - 2),
                feedback := result.feedback ++ ["✗ Avoid using dictionary words"] }

/-- The four flags at the end of the loop of the section `// Character variety`. -/
def varietyOf (password : Bytes) : Variety :=
  varietyLoop { hasUpper := false, hasLower := false, hasDigit := false, hasSpecial := false }
    password

/-- The points of a non-empty password when it reaches the common-password check:
4, 3, 2 or 0 for the length, 1 for mixed case, 1 for a digit, 2 for a special
character. -/
def varietyPoints (password : Bytes) : Int :=
  (if 16 ≤ password.length then 4 else if 12 ≤ password.length then 3
    else if 8 ≤ password.length then 2 else 0)
  + (if (varietyOf password).hasUpper && (varietyOf password).hasLower then 1 else 0)
  + (if (varietyOf password).hasDigit then 1 else 0)
  + (if (varietyOf password).hasSpecial then 2 else 0)

/-! ## The analyser with its memory

The same methods once more, this time as programs on the memory that a
`PasswordStrengthAnalyser` owns: the members of its two sub-objects and the `Node`
and `TrieNode` objects created by `new`. A pointer is the address of an object
(`none` is `nullptr`); every read and every assignment of the source is one step
on this memory. -/

namespace Heap

/-- The struct `PasswordHashTable::Node`: `password` and `next`. -/
structure Node where
  password : Bytes
  next : Option Nat

/-- The struct `DictionaryTrie::TrieNode`: 128 child pointers and `isEndOfWord`. -/
structure TrieNode where
  children : Fin 128 → Option Nat
  isEndOfWord : Bool

/-- The memory of a `PasswordStrengthAnalyser`: the members `capacity` and `table`
of `commonPasswords`, the member `root` of `dictionary`, and the `Node` and
`TrieNode` objects created so far, each at the address equal to its position. -/
structure Memory where
  capacity : Int
  table : List (Option Nat)
  nodes : List Node
  root : Option Nat
  trieNodes : List TrieNode

/-- A method body: it runs on a memory and either returns a value and the memory
it leaves, or has no defined behaviour. -/
abbrev Run (α : Type) := StateT Memory Option α

/-- Undefined behaviour, or a loop that is out of rounds. -/
def undefinedBehaviour {α : Type} : Run α := fun _ => none

/-- The read of the member `capacity`. -/
def readCapacity : Run Int := fun m => some (m.capacity, m)

/-- The read of `table[index]`. -/
def readTable (index : Int) : Run (Option Nat) := fun m =>
  if 0 ≤ index then
    match m.table[index.toNat]? with
    | none => none
    | some head => some (head, m)
  else none

/-- The assignment `table[index] = value`. -/
def writeTable (index : Int) (value : Option Nat) : Run Unit := fun m =>
  if 0 ≤ index ∧ index.toNat < m.table.length then
    some ((), { m with table := m.table.set index.toNat value })
  else none

/-- The expression `new Node(password)`: a new object with `next(nullptr)`. -/
def newNode (password : Bytes) : Run (Option Nat) := fun m =>
  some (some m.nodes.length, { m with nodes := m.nodes ++ [Node.mk password none] })

/-- The read of the object `*p` for a `Node* p`. -/
def readNode (p : Option Nat) : Run Node := fun m =>
  match p with
  | none => none
  | some a =>
    match m.nodes[a]? with
    | none => none
    | some node => some (node, m)

/-- The assignment `p->next = value`. -/
def writeNext (p : Option Nat) (value : Option Nat) : Run Unit := fun m =>
  match p with
  | none => none
  | some a =>
    match m.nodes[a]? with
    | none => none
    | some node => some ((), { m with nodes := m.nodes.set a (Node.mk node.password value) })

/-- The read of the member `root`. -/
def readRoot : Run (Option Nat) := fun m => some (m.root, m)

/-- The assignment `root = value`. -/
def writeRoot (value : Option Nat) : Run Unit := fun m => some ((), { m with root := value })

/-- The expression `new TrieNode()`: `children(128, nullptr), isEndOfWord(false)`. -/
def newTrieNode : Run (Option Nat) := fun m =>
  some (some m.trieNodes.length,
    { m with trieNodes := m.trieNodes ++ [TrieNode.mk (fun _ => none) false] })

/-- The read of the object `*p` for a `TrieNode* p`. -/
def readTrieNode (p : Option Nat) : Run TrieNode := fun m =>
  match p with
  | none => none
  | some a =>
    match m.trieNodes[a]? with
    | none => none
    | some node => some (node, m)

/-- The assignment `p->children[uc] = value`. -/
def writeChild (p : Option Nat) (uc : Fin 128) (value : Option Nat) : Run Unit := fun m =>
  match p with
  | none => none
  | some a =>
    match m.trieNodes[a]? with
    | none => none
    | some node =>
      some ((), { m with
        trieNodes := m.trieNodes.set a
          (TrieNode.mk (fun i => if i = uc then value else node.children i)
            node.isEndOfWord) })

/-- The assignment `p->isEndOfWord = true`. -/
def writeEndOfWord (p : Option Nat) : Run Unit := fun m =>
  match p with
  | none => none
  | some a =>
    match m.trieNodes[a]? with
    | none => none
    | some node =>
      some ((), { m with trieNodes := m.trieNodes.set a (TrieNode.mk node.children true) })

/-- The loop of `hashFunction`, started at `hash`; every round reads `capacity`. -/
def hashLoop : Int → Bytes → Run Int
  | hash, [] => pure hash
  | hash, c :: rest => do
    let capacity ← readCapacity
    match hashStep capacity hash c with
    | none => undefinedBehaviour
    | some h => hashLoop h rest

/-- The method `PasswordHashTable::hashFunction`. -/
def hashFunction (password : Bytes) : Run Int := hashLoop 0 password

/-- The method `PasswordHashTable::addPassword`. -/
def addPassword (password : Bytes) : Run Unit := do
  if password.isEmpty then pure ()
  else
    let index ← hashFunction password
    let newNode ← newNode password
    let head ← readTable index
    writeNext newNode head
    writeTable index newNode

/-- The loop `while (current != nullptr)` of `contains`; the first argument bounds
the number of rounds, and a loop that needs more has no result. -/
def containsLoop : Nat → Bytes → Option Nat → Run Bool
  | 0, _, _ => undefinedBehaviour
  | _ + 1, _, none => pure false
  | rounds + 1, password, some a => do
    let node ← readNode (some a)
    if node.password = password then pure true
    else containsLoop rounds password node.next

/-- The method `PasswordHashTable::contains`, with a bound on the rounds of its
loop. -/
def contains (rounds : Nat) (password : Bytes) : Run Bool := do
  if password.isEmpty then pure false
  else
    let index ← hashFunction password
    let current ← readTable index
    containsLoop rounds password current

/-- The loop of `DictionaryTrie::insert` followed by
`current->isEndOfWord = true`. -/
def insertLoop : Option Nat → Bytes → Run Unit
  | current, [] => writeEndOfWord current
  | current, c :: rest =>
    if h : c.val < 128 then do
      let node ← readTrieNode current
      if (node.children ⟨c.val, h⟩).isNone then
        let fresh ← newTrieNode
        writeChild current ⟨c.val, h⟩ fresh
      let node ← readTrieNode current
      insertLoop (node.children ⟨c.val, h⟩) rest
    else insertLoop current rest

/-- The method `DictionaryTrie::insert`. -/
def insert (word : Bytes) : Run Unit := do
  if word.isEmpty then pure ()
  else
    let current ← readRoot
    insertLoop current word

/-- The inner loop of `findWordsInPassword`. -/
def scanFrom : Option Nat → Bytes → Bytes → List Bytes → Run (List Bytes)
  | _, _, [], foundWords => pure foundWords
  | current, currentWord, c :: rest, foundWords =>
    if h : c.val < 128 then do
      let node ← readTrieNode current
      match node.children ⟨c.val, h⟩ with
      | none => pure foundWords
      | some next => do
        let nextNode ← readTrieNode (some next)
        scanFrom (some next) (currentWord ++ [c]) rest
          (if nextNode.isEndOfWord && decide (3 ≤ (currentWord ++ [c]).length) then
            foundWords ++ [currentWord ++ [c]]
          else foundWords)
    else pure foundWords

/-- The outer loop of `findWordsInPassword`. -/
def scanAll : Bytes → List Bytes → Run (List Bytes)
  | [], foundWords => pure foundWords
  | c :: rest, foundWords => do
    let current ← readRoot
    let foundWords ← scanFrom current [] (c :: rest) foundWords
    scanAll rest foundWords

/-- The method `DictionaryTrie::findWordsInPassword`. -/
def findWordsInPassword (password : Bytes) : Run (List Bytes) := do
  if password.isEmpty then pure []
  else scanAll password []

/-- The section `// Dictionary word check` of `analysePassword`. -/
def dictionaryCheck (password : Bytes) (result : StrengthResult) : Run StrengthResult :=
  if hasLettersLoop password then do
    let dictionaryWords ← findWordsInPassword password
    if !dictionaryWords.isEmpty then
      pure { result with score := max 0 (result.score - 2),
                         feedback := result.feedback ++ ["✗ Avoid using dictionary words"] }
    else pure result
  else pure result

/-- The method `PasswordStrengthAnalyser::analysePassword`, with a bound on the
rounds of the loop of `contains`. -/
def analysePassword (rounds : Nat) (password : Bytes) : Run StrengthResult :=
  let result : StrengthResult := { score := 0, strength := "", feedback := [] }
  if password.isEmpty then
    pure { result with strength := "Very Weak",
                       feedback := result.feedback ++ ["✗ Password cannot be empty"] }
  else
    let result := lengthCheck password result
    let v := varietyLoop
      { hasUpper := false, hasLower := false, hasDigit := false, hasSpecial := false } password
    let result := varietyCheck v result
    contains rounds password >>= fun isCommon =>
      let result := commonCheck isCommon result
      dictionaryCheck password result >>= fun result =>
        let result := longBonus password result
        pure (determineStrength result)

/-- A loop `for (const auto& x : xs) body(x)`. -/
def forEach (body : Bytes → Run Unit) : List Bytes → Run Unit
  | [] => pure ()
  | x :: xs => do
    body x
    forEach body xs

/-- The memory before the construction: nothing allocated. -/
def Memory.empty : Memory :=
  { capacity := 0, table := [], nodes := [], root := none, trieNodes := [] }

/-- The constructor `PasswordHashTable(int cap = 100)`. -/
def constructTable (cap : Int) : Run Unit := fun m =>
  if 0 ≤ cap then some ((), { m with capacity := cap, table := List.replicate cap.toNat none })
  else none

/-- The constructor `DictionaryTrie()`: `root = new TrieNode()`. -/
def constructTrie : Run Unit := do
  let fresh ← newTrieNode
  writeRoot fresh

/-- The constructor `PasswordStrengthAnalyser()` with the construction of the two
members before it. -/
def construct : Run Unit := do
  constructTable 100
  constructTrie
  forEach addPassword weakPasswords
  forEach insert commonWords

/-- The memory of the analyser of `main` after its construction. -/
def constructed : Option Memory := (construct Memory.empty).map fun out => out.2

/-- The passwords met by following `next` from `p` until `nullptr`, within the
given number of rounds. -/
def chainList : Nat → Memory → Option Nat → Option (List Bytes)
  | 0, _, _ => none
  | _ + 1, _, none => some []
  | rounds + 1, m, some a =>
    match m.nodes[a]? with
    | none => none
    | some node =>
      match chainList rounds m node.next with
      | none => none
      | some l => some (node.password :: l)

/-- The common passwords whose bucket is `index`, last added first. -/
def bucket (index : Nat) : List Bytes :=
  (weakPasswords.filter fun s => decide (PasswordAnalyser.hashFunction 100 s = some (index : Int))).reverse

/-- The table part of a memory is the one the constructor leaves: capacity 100,
and bucket `index` is the chain of the common passwords with this hash. -/
def tableOK (m : Memory) : Bool :=
  decide (m.capacity = 100) &&
    (List.range 100).all fun index =>
      match m.table[index]? with
      | none => false
      | some head => decide (chainList 21 m head = some (bucket index))

/-- The trie stored at address `p` of the memory is the tree `n`: same flags and
same edges, node by node; the first argument bounds the depth of the comparison. -/
def sameTrie : Nat → Memory → Option Nat → PasswordAnalyser.TrieNode → Bool
  | 0, _, _, _ => false
  | _ + 1, _, none, _ => false
  | depth + 1, m, some a, n =>
    match m.trieNodes[a]? with
    | none => false
    | some node =>
      (node.isEndOfWord == n.isEndOfWord) &&
        (List.finRange 128).all fun i =>
          match node.children i, n.children i with
          | none, none => true
          | some b, some child => sameTrie depth m (some b) child
          | _, _ => false

/-- The memory right after the construction of the two members, before the two
`initialize` methods run. -/
def Memory.fresh : Option Memory :=
  ((constructTable 100 >>= fun _ => constructTrie) Memory.empty).map fun out => out.2

/-- A method body that leaves every memory on which it returns as it was. -/
def ReadOnly {α : Type} (x : Run α) : Prop :=
  ∀ (m : Memory) (a : α) (m1 : Memory), x m = some (a, m1) → m1 = m

end Heap

/-! ## Hash table lemmas -/

theorem hashStep_inRange {capacity hash : Int} (c : Byte) (hpos : 0 < capacity)
    (hfit : 31 * (capacity - 1) + 255 ≤ INT_MAX) (h0 : 0 ≤ hash) (h1 : hash < capacity) :
    ∃ h, hashStep capacity hash c = some h ∧ 0 ≤ h ∧ h < capacity := by
  have hc : (c.val : Int) ≤ 255 := by have := c.isLt; omega
  have hc0 : (0 : Int) ≤ (c.val : Int) := Int.ofNat_nonneg _
  have hv0 : 0 ≤ hash * 31 + (c.val : Int) := by omega
  refine ⟨Int.tmod (hash * 31 + (c.val : Int)) capacity, ?_, ?_, ?_⟩
  · unfold hashStep
    unfold INT_MAX at *
    simp only []
    rw [if_pos]
    refine ⟨by omega, by omega, by omega⟩
  · exact Int.tmod_nonneg _ hv0
  · exact Int.tmod_lt_of_pos _ hpos

theorem hashLoop_inRange {capacity : Int} (hpos : 0 < capacity)
    (hfit : 31 * (capacity - 1) + 255 ≤ INT_MAX) (password : Bytes) :
    ∀ hash : Int, 0 ≤ hash → hash < capacity →
      ∃ h, hashLoop capacity hash password = some h ∧ 0 ≤ h ∧ h < capacity := by
  induction password with
  | nil => intro hash h0 h1; exact ⟨hash, rfl, h0, h1⟩
  | cons c rest ih =>
    intro hash h0 h1
    obtain ⟨h, hs, hh0, hh1⟩ := hashStep_inRange c hpos hfit h0 h1
    obtain ⟨h2, hl, hh⟩ := ih h hh0 hh1
    exact ⟨h2, by simp only [hashLoop, hs, hl], hh⟩

theorem hashFunction_inRange {capacity : Int} (hpos : 0 < capacity)
    (hfit : 31 * (capacity - 1) + 255 ≤ INT_MAX) (password : Bytes) :
    ∃ h, hashFunction capacity password = some h ∧ 0 ≤ h ∧ h < capacity :=
  hashLoop_inRange hpos hfit password 0 (le_refl 0) hpos


theorem chainContains_iff (password : Bytes) (chain : List Bytes) :
    chainContains password chain = true ↔ password ∈ chain := by
  induction chain with
  | nil => simp [chainContains]
  | cons p next ih =>
    by_cases hp : p = password
    · simp [chainContains, hp]
    · have hp2 : ¬ password = p := fun h => hp h.symm
      simp [chainContains, hp, hp2, ih]

theorem holds_new (cap : Int) : (PasswordHashTable.new cap).Holds cap [] := by
  refine ⟨rfl, ?_⟩
  intro s idx
  simp [PasswordHashTable.new]

theorem isEmpty_eq_false_of_ne {password : Bytes} (h : password ≠ []) :
    password.isEmpty = false := by
  cases password with
  | nil => exact absurd rfl h
  | cons _ _ => rfl

theorem holds_addPassword {cap : Int} (hpos : 0 < cap)
    (hfit : 31 * (cap - 1) + 255 ≤ INT_MAX) {t : PasswordHashTable} {added : List Bytes}
    (ht : t.Holds cap added) (p : Bytes) :
    ∃ t1, t.addPassword p = some t1 ∧ t1.Holds cap (added ++ [p]) := by
  obtain ⟨hcap, hb⟩ := ht
  by_cases hp : p = []
  · subst hp
    refine ⟨t, rfl, hcap, ?_⟩
    intro s idx
    rw [hb s idx]
    constructor
    · rintro ⟨h1, h2, h3⟩
      exact ⟨h1, List.mem_append_left _ h2, h3⟩
    · rintro ⟨h1, h2, h3⟩
      refine ⟨h1, ?_, h3⟩
      rcases List.mem_append.1 h2 with h | h
      · exact h
      · exact absurd (List.mem_singleton.1 h) h1
  · obtain ⟨ip, hip, hip0, hip1⟩ := hashFunction_inRange hpos hfit p
    have hr : t.inRange ip = true := by
      simp [PasswordHashTable.inRange, hcap, hip0, hip1]
    refine ⟨{ t with table := fun i => if i = ip then p :: t.table ip else t.table i }, ?_,
      hcap, ?_⟩
    · simp only [PasswordHashTable.addPassword, isEmpty_eq_false_of_ne hp, hcap, hip, hr]
      simp
    · intro s idx
      by_cases hi : idx = ip
      · subst hi
        simp only [if_true, List.mem_cons, hb s idx, List.mem_append, List.not_mem_nil, or_false]
        constructor
        · rintro (h | ⟨h1, h2, h3⟩)
          · subst h
            exact ⟨hp, Or.inr rfl, hip⟩
          · exact ⟨h1, Or.inl h2, h3⟩
        · rintro ⟨h1, h2 | h2, h3⟩
          · exact Or.inr ⟨h1, h2, h3⟩
          · exact Or.inl h2
      · simp only [if_neg hi, hb s idx, List.mem_append, List.mem_cons, List.not_mem_nil,
          or_false]
        constructor
        · rintro ⟨h1, h2, h3⟩
          exact ⟨h1, Or.inl h2, h3⟩
        · rintro ⟨h1, h2 | h2, h3⟩
          · exact ⟨h1, h2, h3⟩
          · subst h2
            rw [hip] at h3
            exact absurd (Option.some.inj h3).symm hi

theorem holds_addAll {cap : Int} (hpos : 0 < cap)
    (hfit : 31 * (cap - 1) + 255 ≤ INT_MAX) (adds : List Bytes) :
    ∀ (t : PasswordHashTable) (added : List Bytes), t.Holds cap added →
      ∃ t1, t.addAll adds = some t1 ∧ t1.Holds cap (added ++ adds) := by
  induction adds with
  | nil =>
    intro t added ht
    exact ⟨t, rfl, by simpa using ht⟩
  | cons p rest ih =>
    intro t added ht
    obtain ⟨t1, h1, ht1⟩ := holds_addPassword hpos hfit ht p
    obtain ⟨t2, h2, ht2⟩ := ih t1 (added ++ [p]) ht1
    refine ⟨t2, ?_, by simpa using ht2⟩
    simp only [PasswordHashTable.addAll, h1, h2]

theorem contains_of_holds {cap : Int} (hpos : 0 < cap)
    (hfit : 31 * (cap - 1) + 255 ≤ INT_MAX) {t : PasswordHashTable} {added : List Bytes}
    (ht : t.Holds cap added) (s : Bytes) :
    t.contains s = some (decide (s ≠ [] ∧ s ∈ added)) := by
  obtain ⟨hcap, hb⟩ := ht
  by_cases hs : s = []
  · subst hs
    simp [PasswordHashTable.contains]
  · obtain ⟨i, hi, hi0, hi1⟩ := hashFunction_inRange hpos hfit s
    have hr : t.inRange i = true := by
      simp [PasswordHashTable.inRange, hcap, hi0, hi1]
    simp only [PasswordHashTable.contains, isEmpty_eq_false_of_ne hs, hcap, hi, hr]
    simp only [Bool.false_eq_true, if_false, if_true, Option.some.injEq]
    rw [Bool.eq_iff_iff, chainContains_iff, hb s i]
    simp [hs, hi]

/-! ## The analyser as a pipeline -/

theorem analyser_new :
    ∃ t, PasswordStrengthAnalyser.new
        = some { commonPasswords := t, dictionary := initializeDictionary DictionaryTrie.new } ∧
      t.Holds 100 weakPasswords := by
  obtain ⟨t, h1, h2⟩ := holds_addAll (show (0 : Int) < 100 by decide)
    (show 31 * ((100 : Int) - 1) + 255 ≤ INT_MAX by decide) weakPasswords
    (PasswordHashTable.new 100) [] (holds_new 100)
  refine ⟨t, ?_, by simpa using h2⟩
  simp only [PasswordStrengthAnalyser.new, initializeCommonPasswords, h1]

theorem analyse_eq (password : Bytes) (h : password ≠ []) :
    analyse password = some (determineStrength (longBonus password
      (dictionaryCheck (initializeDictionary DictionaryTrie.new) password
        (commonCheck (decide (password ∈ weakPasswords))
          (varietyCheck
            (varietyLoop
              { hasUpper := false, hasLower := false, hasDigit := false, hasSpecial := false }
              password)
            (lengthCheck password { score := 0, strength := "", feedback := [] })))))) := by
  obtain ⟨t, hnew, ht⟩ := analyser_new
  have hc := contains_of_holds (show (0 : Int) < 100 by decide)
    (show 31 * ((100 : Int) - 1) + 255 ≤ INT_MAX by decide) ht password
  simp only [analyse, hnew, PasswordStrengthAnalyser.analysePassword,
    isEmpty_eq_false_of_ne h, hc]
  simp [h]

theorem lengthCheck_score_nonneg (password : Bytes) (r : StrengthResult) (h : 0 ≤ r.score) :
    0 ≤ (lengthCheck password r).score := by
  unfold lengthCheck
  split_ifs <;> simp <;> omega

theorem varietyCheck_score_nonneg (v : Variety) (r : StrengthResult) (h : 0 ≤ r.score) :
    0 ≤ (varietyCheck v r).score := by
  unfold varietyCheck
  simp only []
  split_ifs <;> simp <;> omega

theorem commonCheck_score_nonneg (b : Bool) (r : StrengthResult) (h : 0 ≤ r.score) :
    0 ≤ (commonCheck b r).score := by
  unfold commonCheck
  split_ifs <;> simp [h]

theorem dictionaryCheck_score_nonneg (d : DictionaryTrie) (password : Bytes)
    (r : StrengthResult) (h : 0 ≤ r.score) : 0 ≤ (dictionaryCheck d password r).score := by
  unfold dictionaryCheck
  simp only []
  split_ifs <;> simp [h]

theorem longBonus_score_nonneg (password : Bytes) (r : StrengthResult) (h : 0 ≤ r.score) :
    0 ≤ (longBonus password r).score := by
  unfold longBonus
  split_ifs
  · show 0 ≤ r.score + 2
    omega
  · exact h

theorem determineStrength_score (r : StrengthResult) : (determineStrength r).score = r.score := by
  unfold determineStrength
  split_ifs <;> rfl

theorem determineStrength_feedback (r : StrengthResult) :
    (determineStrength r).feedback = r.feedback := by
  unfold determineStrength
  split_ifs <;> rfl

/-! ## Claims on the analyser -/

/-- C1: every non-empty password is analysed, by the analyser built from the fixed
lists, to a result whose score is not negative. -/
theorem analyse_score_nonneg (s : Bytes) (h : s ≠ []) :
    ∃ res, analyse s = some res ∧ 0 ≤ res.score := by
  refine ⟨_, analyse_eq s h, ?_⟩
  rw [determineStrength_score]
  apply longBonus_score_nonneg
  apply dictionaryCheck_score_nonneg
  apply commonCheck_score_nonneg
  apply varietyCheck_score_nonneg
  apply lengthCheck_score_nonneg
  exact le_refl 0

/-- Witness of C1 at the password `mypassword1`. -/
theorem analyse_score_nonneg_witness :
    lit "mypassword1" ≠ [] ∧ ∃ res, analyse (lit "mypassword1") = some res ∧ 0 ≤ res.score :=
  ⟨by decide, analyse_score_nonneg (lit "mypassword1") (by decide)⟩

/-- C2: the empty password gives score 0, the label "Very Weak" and the single
feedback line that a password cannot be empty, for every analyser and in
particular for the one built from the fixed lists. -/
theorem analyse_empty :
    (∀ a : PasswordStrengthAnalyser, a.analysePassword (lit "") =
      some { score := 0, strength := "Very Weak", feedback := ["✗ Password cannot be empty"] }) ∧
    analyse (lit "") =
      some { score := 0, strength := "Very Weak", feedback := ["✗ Password cannot be empty"] } :=
  ⟨fun _ => rfl, by decide⟩

/-- C3: each of the 20 entries of the common-password list is analysed to score
0, label "Very Weak", with the common-password warning among the feedback. -/
theorem common_password_reset (p : Bytes) (h : p ∈ weakPasswords) :
    weakPasswords.length = 20 ∧
    ∃ res, analyse p = some res ∧ res.score = 0 ∧ res.strength = "Very Weak" ∧
      "✗ This is a very common password" ∈ res.feedback := by
  have key : ∀ q ∈ weakPasswords,
      (analyse q).map (fun res => decide (res.score = 0 ∧ res.strength = "Very Weak" ∧
        "✗ This is a very common password" ∈ res.feedback)) = some true := by
    decide
  refine ⟨rfl, ?_⟩
  have hk := key p h
  cases hres : analyse p with
  | none => rw [hres] at hk; exact absurd hk (by simp)
  | some res =>
    rw [hres] at hk
    refine ⟨res, rfl, ?_⟩
    simpa using hk

/-- Witness of C3 at the entry `password123`. -/
theorem common_password_reset_witness :
    lit "password123" ∈ weakPasswords ∧ weakPasswords.length = 20 ∧
    ∃ res, analyse (lit "password123") = some res ∧ res.score = 0 ∧
      res.strength = "Very Weak" ∧ "✗ This is a very common password" ∈ res.feedback :=
  ⟨by decide, common_password_reset (lit "password123") (by decide)⟩

theorem determineStrength_label (r : StrengthResult) :
    ((determineStrength r).strength = "Very Strong" ↔ 9 ≤ r.score) ∧
    ((determineStrength r).strength = "Strong" ↔ 7 ≤ r.score ∧ r.score ≤ 8) ∧
    ((determineStrength r).strength = "Moderate" ↔ 5 ≤ r.score ∧ r.score ≤ 6) ∧
    ((determineStrength r).strength = "Weak" ↔ 3 ≤ r.score ∧ r.score ≤ 4) ∧
    ((determineStrength r).strength = "Very Weak" ↔ r.score ≤ 2) := by
  unfold determineStrength
  split_ifs with h9 h7 h5 h3 <;>
    refine ⟨?_, ?_, ?_, ?_, ?_⟩ <;> constructor <;> intro h <;>
    first
      | omega
      | rfl
      | (dsimp only at h; exact absurd h (by decide))

/-- C4: for a non-empty password the label is a function of the final score:
"Very Strong" from 9, "Strong" for 7 and 8, "Moderate" for 5 and 6, "Weak" for 3
and 4, "Very Weak" up to 2. The five passwords of the last part reach the edge
scores 9, 8, 5, 3 and 2. -/
theorem strength_from_score (p : Bytes) (h : p ≠ []) :
    (∃ res, analyse p = some res ∧
      (res.strength = "Very Strong" ↔ 9 ≤ res.score) ∧
      (res.strength = "Strong" ↔ 7 ≤ res.score ∧ res.score ≤ 8) ∧
      (res.strength = "Moderate" ↔ 5 ≤ res.score ∧ res.score ≤ 6) ∧
      (res.strength = "Weak" ↔ 3 ≤ res.score ∧ res.score ≤ 4) ∧
      (res.strength = "Very Weak" ↔ res.score ≤ 2)) ∧
    (analyse (lit "Xyzzyxyzzyxyzzyxyzzyx!")).map (fun r => (r.score, r.strength))
      = some (9, "Very Strong") ∧
    (analyse (lit "Xyzzy1!xyzzyxyzz")).map (fun r => (r.score, r.strength))
      = some (8, "Strong") ∧
    (analyse (lit "xyzzyxyzzyx!")).map (fun r => (r.score, r.strength))
      = some (5, "Moderate") ∧
    (analyse (lit "xyzzyxyzzyxy")).map (fun r => (r.score, r.strength))
      = some (3, "Weak") ∧
    (analyse (lit "xyzzyxyz")).map (fun r => (r.score, r.strength))
      = some (2, "Very Weak") := by
  refine ⟨⟨_, analyse_eq p h, ?_⟩, by decide, by decide, by decide, by decide, by decide⟩
  simp only [determineStrength_score]
  exact determineStrength_label _

/-- Witness of C4 at the password `Xyzzy1!xyzzyxyzz`. -/
theorem strength_from_score_witness :
    lit "Xyzzy1!xyzzyxyzz" ≠ [] ∧
    ∃ res, analyse (lit "Xyzzy1!xyzzyxyzz") = some res ∧
      (res.strength = "Very Strong" ↔ 9 ≤ res.score) ∧
      (res.strength = "Strong" ↔ 7 ≤ res.score ∧ res.score ≤ 8) ∧
      (res.strength = "Moderate" ↔ 5 ≤ res.score ∧ res.score ≤ 6) ∧
      (res.strength = "Weak" ↔ 3 ≤ res.score ∧ res.score ≤ 4) ∧
      (res.strength = "Very Weak" ↔ res.score ≤ 2) :=
  ⟨by decide, (strength_from_score (lit "Xyzzy1!xyzzyxyzz") (by decide)).1⟩

theorem lengthCheck_feedback (password : Bytes) (r : StrengthResult) :
    ∃ l, (lengthCheck password r).feedback = r.feedback ++ [l] ∧
      (l = "✓ Excellent password length (16+ characters)" ∨
       l = "✓ Good password length (12+ characters)" ∨
       l = "✓ Acceptable password length (8+ characters)" ∨
       l = "✗ Password too short (minimum 8 characters recommended)") := by
  unfold lengthCheck
  split_ifs
  · exact ⟨_, rfl, Or.inl rfl⟩
  · exact ⟨_, rfl, Or.inr (Or.inl rfl)⟩
  · exact ⟨_, rfl, Or.inr (Or.inr (Or.inl rfl))⟩
  · exact ⟨_, rfl, Or.inr (Or.inr (Or.inr rfl))⟩

theorem varietyCheck_feedback (v : Variety) (r : StrengthResult) :
    ∃ l2 l3 l4, (varietyCheck v r).feedback = r.feedback ++ [l2, l3, l4] ∧
      (l2 = "✓ Contains both uppercase and lowercase letters" ∨
       l2 = "✗ Include both uppercase and lowercase letters") ∧
      (l3 = "✓ Contains numbers" ∨ l3 = "✗ Include numbers") ∧
      (l4 = "✓ Contains special characters" ∨ l4 = "✗ Include special characters") := by
  refine ⟨if v.hasUpper && v.hasLower then "✓ Contains both uppercase and lowercase letters"
      else "✗ Include both uppercase and lowercase letters",
    if v.hasDigit then "✓ Contains numbers" else "✗ Include numbers",
    if v.hasSpecial then "✓ Contains special characters" else "✗ Include special characters",
    ?_, ?_, ?_, ?_⟩
  · unfold varietyCheck
    simp only []
    split_ifs <;> simp
  · split_ifs
    · exact Or.inl rfl
    · exact Or.inr rfl
  · split_ifs
    · exact Or.inl rfl
    · exact Or.inr rfl
  · split_ifs
    · exact Or.inl rfl
    · exact Or.inr rfl

theorem commonCheck_feedback (b : Bool) (r : StrengthResult) :
    ∃ t, (commonCheck b r).feedback = r.feedback ++ t ∧
      (t = [] ∨ t = ["✗ This is a very common password"]) := by
  unfold commonCheck
  split_ifs
  · exact ⟨_, rfl, Or.inr rfl⟩
  · exact ⟨[], by simp, Or.inl rfl⟩

theorem dictionaryCheck_feedback (d : DictionaryTrie) (password : Bytes) (r : StrengthResult) :
    ∃ t, (dictionaryCheck d password r).feedback = r.feedback ++ t ∧
      (t = [] ∨ t = ["✗ Avoid using dictionary words"]) := by
  unfold dictionaryCheck
  simp only []
  split_ifs
  · exact ⟨_, rfl, Or.inr rfl⟩
  · exact ⟨[], by simp, Or.inl rfl⟩
  · exact ⟨[], by simp, Or.inl rfl⟩

theorem longBonus_feedback (password : Bytes) (r : StrengthResult) :
    ∃ t, (longBonus password r).feedback = r.feedback ++ t ∧
      (t = [] ∨ t = ["✓ Bonus for very long password"]) := by
  unfold longBonus
  split_ifs
  · exact ⟨_, rfl, Or.inr rfl⟩
  · exact ⟨[], by simp, Or.inl rfl⟩

/-- C11: the feedback of a non-empty password is one length line, one mixed-case
line, one digits line, one special-characters line, then at most one
common-password warning, at most one dictionary-word warning and at most one
long-password bonus line, in this order; it has between 4 and 7 lines. -/
theorem feedback_shape (p : Bytes) (h : p ≠ []) :
    ∃ res, analyse p = some res ∧
      ∃ l1 l2 l3 l4 t1 t2 t3, res.feedback = [l1, l2, l3, l4] ++ t1 ++ t2 ++ t3 ∧
        (l1 = "✓ Excellent password length (16+ characters)" ∨
         l1 = "✓ Good password length (12+ characters)" ∨
         l1 = "✓ Acceptable password length (8+ characters)" ∨
         l1 = "✗ Password too short (minimum 8 characters recommended)") ∧
        (l2 = "✓ Contains both uppercase and lowercase letters" ∨
         l2 = "✗ Include both uppercase and lowercase letters") ∧
        (l3 = "✓ Contains numbers" ∨ l3 = "✗ Include numbers") ∧
        (l4 = "✓ Contains special characters" ∨ l4 = "✗ Include special characters") ∧
        (t1 = [] ∨ t1 = ["✗ This is a very common password"]) ∧
        (t2 = [] ∨ t2 = ["✗ Avoid using dictionary words"]) ∧
        (t3 = [] ∨ t3 = ["✓ Bonus for very long password"]) ∧
        4 ≤ res.feedback.length ∧ res.feedback.length ≤ 7 := by
  refine ⟨_, analyse_eq p h, ?_⟩
  rw [determineStrength_feedback]
  obtain ⟨t3, e3, h3⟩ := longBonus_feedback p
    (dictionaryCheck (initializeDictionary DictionaryTrie.new) p
      (commonCheck (decide (p ∈ weakPasswords))
        (varietyCheck
          (varietyLoop
            { hasUpper := false, hasLower := false, hasDigit := false, hasSpecial := false } p)
          (lengthCheck p { score := 0, strength := "", feedback := [] }))))
  obtain ⟨t2, e2, h2⟩ := dictionaryCheck_feedback (initializeDictionary DictionaryTrie.new) p
    (commonCheck (decide (p ∈ weakPasswords))
      (varietyCheck
        (varietyLoop
          { hasUpper := false, hasLower := false, hasDigit := false, hasSpecial := false } p)
        (lengthCheck p { score := 0, strength := "", feedback := [] })))
  obtain ⟨t1, e1, h1⟩ := commonCheck_feedback (decide (p ∈ weakPasswords))
    (varietyCheck
      (varietyLoop
        { hasUpper := false, hasLower := false, hasDigit := false, hasSpecial := false } p)
      (lengthCheck p { score := 0, strength := "", feedback := [] }))
  obtain ⟨l2, l3, l4, ev, hl2, hl3, hl4⟩ := varietyCheck_feedback
    (varietyLoop
      { hasUpper := false, hasLower := false, hasDigit := false, hasSpecial := false } p)
    (lengthCheck p { score := 0, strength := "", feedback := [] })
  obtain ⟨l1, el, hl1⟩ := lengthCheck_feedback p { score := 0, strength := "", feedback := [] }
  have hfb : (longBonus p
      (dictionaryCheck (initializeDictionary DictionaryTrie.new) p
        (commonCheck (decide (p ∈ weakPasswords))
          (varietyCheck
            (varietyLoop
              { hasUpper := false, hasLower := false, hasDigit := false, hasSpecial := false } p)
            (lengthCheck p { score := 0, strength := "", feedback := [] }))))).feedback
      = [l1, l2, l3, l4] ++ t1 ++ t2 ++ t3 := by
    rw [e3, e2, e1, ev, el]
    simp
  refine ⟨l1, l2, l3, l4, t1, t2, t3, hfb, hl1, hl2, hl3, hl4, h1, h2, h3, ?_, ?_⟩
  · rw [hfb]
    simp only [List.length_append, List.length_cons, List.length_nil]
    omega
  · rw [hfb]
    rcases h1 with h1 | h1 <;> rcases h2 with h2 | h2 <;> rcases h3 with h3 | h3 <;>
      simp [h1, h2, h3]

/-- Witness of C11 at the password `mypassword1`. -/
theorem feedback_shape_witness :
    lit "mypassword1" ≠ [] ∧
    ∃ res, analyse (lit "mypassword1") = some res ∧
      ∃ l1 l2 l3 l4 t1 t2 t3, res.feedback = [l1, l2, l3, l4] ++ t1 ++ t2 ++ t3 ∧
        (l1 = "✓ Excellent password length (16+ characters)" ∨
         l1 = "✓ Good password length (12+ characters)" ∨
         l1 = "✓ Acceptable password length (8+ characters)" ∨
         l1 = "✗ Password too short (minimum 8 characters recommended)") ∧
        (l2 = "✓ Contains both uppercase and lowercase letters" ∨
         l2 = "✗ Include both uppercase and lowercase letters") ∧
        (l3 = "✓ Contains numbers" ∨ l3 = "✗ Include numbers") ∧
        (l4 = "✓ Contains special characters" ∨ l4 = "✗ Include special characters") ∧
        (t1 = [] ∨ t1 = ["✗ This is a very common password"]) ∧
        (t2 = [] ∨ t2 = ["✗ Avoid using dictionary words"]) ∧
        (t3 = [] ∨ t3 = ["✓ Bonus for very long password"]) ∧
        4 ≤ res.feedback.length ∧ res.feedback.length ≤ 7 :=
  ⟨by decide, feedback_shape (lit "mypassword1") (by decide)⟩

theorem analyse_total (s : Bytes) : ∃ res, analyse s = some res := by
  by_cases h : s = []
  · subst h
    exact ⟨_, (by decide : analyse [] =
      some { score := 0, strength := "Very Weak", feedback := ["✗ Password cannot be empty"] })⟩
  · exact ⟨_, analyse_eq s h⟩

theorem hashIntermediates_bound (s : Bytes) :
    ∀ hash : Int, 0 ≤ hash → hash < 100 →
      ∀ v ∈ hashIntermediates 100 hash s, 0 ≤ v ∧ v ≤ 3324 := by
  induction s with
  | nil => intro hash _ _ v hv; simp [hashIntermediates] at hv
  | cons c rest ih =>
    intro hash h0 h1 v hv
    have hc : (c.val : Int) ≤ 255 := by have := c.isLt; omega
    have hc0 : (0 : Int) ≤ (c.val : Int) := Int.ofNat_nonneg _
    have hv0 : 0 ≤ hash * 31 + (c.val : Int) := by omega
    rw [hashIntermediates, List.mem_cons] at hv
    rcases hv with hv | hv
    · subst hv
      exact ⟨hv0, by omega⟩
    · exact ih _ (Int.tmod_nonneg _ hv0) (Int.tmod_lt_of_pos _ (by decide)) v hv

theorem insertIndices_lt (w : Bytes) : ∀ i ∈ insertIndices w, i < 128 := by
  induction w with
  | nil => intro i hi; simp [insertIndices] at hi
  | cons c rest ih =>
    intro i hi
    rw [insertIndices] at hi
    split_ifs at hi with hc
    · rcases List.mem_cons.1 hi with h | h
      · exact h ▸ hc
      · exact ih i h
    · exact ih i hi

theorem scanFromIndices_lt (s : Bytes) :
    ∀ (n : TrieNode), ∀ i ∈ scanFromIndices n s, i < 128 := by
  induction s with
  | nil => intro n i hi; simp [scanFromIndices] at hi
  | cons c rest ih =>
    intro n i hi
    rw [scanFromIndices] at hi
    split_ifs at hi with hc
    · rcases List.mem_cons.1 hi with h | h
      · exact h ▸ hc
      · cases hch : n.children ⟨c.val, hc⟩ with
        | none => rw [hch] at h; simp at h
        | some next => rw [hch] at h; exact ih next i h
    · simp at hi

theorem scanAllIndices_lt (root : TrieNode) (s : Bytes) :
    ∀ i ∈ scanAllIndices root s, i < 128 := by
  induction s with
  | nil => intro i hi; simp [scanAllIndices] at hi
  | cons c rest ih =>
    intro i hi
    rw [scanAllIndices] at hi
    rcases List.mem_append.1 hi with h | h
    · exact scanFromIndices_lt _ root i h
    · exact ih i h

/-- C12: for every byte string `s`, bytes from 128 on included, the analyser built
from the fixed lists returns a result; the bucket index of `s` is computed without
overflow and lies in `[0, 100)`; every value of `hash * 31 + byte` lies between 0
and 3324, and 3324 is reached; every index of an access `children[uc]` made by
`insert` and by `findWordsInPassword` is below 128. -/
theorem analyse_no_out_of_range (s : Bytes) :
    (∃ res, analyse s = some res) ∧
    (∃ index, hashFunction 100 s = some index ∧ 0 ≤ index ∧ index < 100) ∧
    (∀ v ∈ hashIntermediates 100 0 s, 0 ≤ v ∧ v ≤ 3324) ∧
    hashIntermediates 100 0 [99, 255] = [99, 3324] ∧
    (∀ w : Bytes, ∀ i ∈ insertIndices w, i < 128) ∧
    (∀ root : TrieNode, ∀ i ∈ scanAllIndices root s, i < 128) :=
  ⟨analyse_total s,
    hashFunction_inRange (show (0 : Int) < 100 by decide)
      (show 31 * ((100 : Int) - 1) + 255 ≤ INT_MAX by decide) s,
    hashIntermediates_bound s 0 (by decide) (by decide),
    by decide,
    insertIndices_lt,
    fun root => scanAllIndices_lt root s⟩

/-! ## The analyser on its memory -/

namespace Heap

theorem bind_apply {α β : Type} (x : Run α) (f : α → Run β) (m : Memory) :
    (x >>= f) m = match x m with
      | none => none
      | some (a, m1) => f a m1 := by
  show (x m >>= fun p => f p.1 p.2) = _
  cases x m <;> rfl

theorem pure_apply {α : Type} (a : α) (m : Memory) : (pure a : Run α) m = some (a, m) := rfl

theorem bind_of_eq {α β : Type} (x : Run α) (f : α → Run β) (m m1 : Memory) (a : α)
    (h : x m = some (a, m1)) : (x >>= f) m = f a m1 := by
  rw [bind_apply, h]

theorem readOnly_pure {α : Type} (a : α) : ReadOnly (pure a : Run α) := by
  intro m b m1 h
  rw [pure_apply] at h
  exact (congrArg Prod.snd (Option.some.inj h)).symm

theorem readOnly_undefined {α : Type} : ReadOnly (undefinedBehaviour : Run α) := by
  intro m b m1 h
  exact absurd h (by simp [undefinedBehaviour])

theorem readOnly_bind {α β : Type} (x : Run α) (f : α → Run β) (hx : ReadOnly x)
    (hf : ∀ a, ReadOnly (f a)) : ReadOnly (x >>= f) := by
  intro m b m2 h
  rw [bind_apply] at h
  cases hxm : x m with
  | none => rw [hxm] at h; exact absurd h (by simp)
  | some p =>
    obtain ⟨a, m1⟩ := p
    rw [hxm] at h
    have h1 := hx m a m1 hxm
    subst h1
    exact hf a _ b m2 h

theorem readOnly_readCapacity : ReadOnly readCapacity := by
  intro m a m1 h
  simp only [readCapacity, Option.some.injEq, Prod.mk.injEq] at h
  exact h.2.symm

theorem readOnly_readRoot : ReadOnly readRoot := by
  intro m a m1 h
  simp only [readRoot, Option.some.injEq, Prod.mk.injEq] at h
  exact h.2.symm

theorem readOnly_readTable (index : Int) : ReadOnly (readTable index) := by
  intro m a m1 h
  unfold readTable at h
  split_ifs at h
  cases ht : m.table[index.toNat]? with
  | none => rw [ht] at h; exact absurd h (by simp)
  | some head =>
    rw [ht] at h
    simp only [Option.some.injEq, Prod.mk.injEq] at h
    exact h.2.symm

theorem readOnly_readNode (p : Option Nat) : ReadOnly (readNode p) := by
  intro m a m1 h
  unfold readNode at h
  cases p with
  | none => exact absurd h (by simp)
  | some b =>
    cases hn : m.nodes[b]? with
    | none => simp only [hn] at h; exact absurd h (by simp)
    | some node =>
      simp only [hn, Option.some.injEq, Prod.mk.injEq] at h
      exact h.2.symm

theorem readOnly_readTrieNode (p : Option Nat) : ReadOnly (readTrieNode p) := by
  intro m a m1 h
  unfold readTrieNode at h
  cases p with
  | none => exact absurd h (by simp)
  | some b =>
    cases hn : m.trieNodes[b]? with
    | none => simp only [hn] at h; exact absurd h (by simp)
    | some node =>
      simp only [hn, Option.some.injEq, Prod.mk.injEq] at h
      exact h.2.symm

theorem readOnly_hashLoop (password : Bytes) : ∀ hash : Int, ReadOnly (hashLoop hash password) := by
  induction password with
  | nil => intro hash; exact readOnly_pure hash
  | cons c rest ih =>
    intro hash
    unfold hashLoop
    apply readOnly_bind _ _ readOnly_readCapacity
    intro capacity
    cases hashStep capacity hash c with
    | none => exact readOnly_undefined
    | some h => exact ih h

theorem readOnly_containsLoop (rounds : Nat) :
    ∀ (password : Bytes) (current : Option Nat),
      ReadOnly (containsLoop rounds password current) := by
  induction rounds with
  | zero => intro password current; exact readOnly_undefined
  | succ rounds ih =>
    intro password current
    cases current with
    | none => exact readOnly_pure false
    | some a =>
      unfold containsLoop
      apply readOnly_bind _ _ (readOnly_readNode _)
      intro node
      split_ifs
      · exact readOnly_pure true
      · exact ih password node.next

theorem readOnly_contains (rounds : Nat) (password : Bytes) :
    ReadOnly (contains rounds password) := by
  unfold contains
  split_ifs
  · exact readOnly_pure false
  · apply readOnly_bind _ _ (readOnly_hashLoop password 0)
    intro index
    apply readOnly_bind _ _ (readOnly_readTable index)
    intro current
    exact readOnly_containsLoop rounds password current

theorem readOnly_scanFrom (rest : Bytes) :
    ∀ (current : Option Nat) (currentWord : Bytes) (foundWords : List Bytes),
      ReadOnly (scanFrom current currentWord rest foundWords) := by
  induction rest with
  | nil => intro current currentWord foundWords; exact readOnly_pure foundWords
  | cons c rest ih =>
    intro current currentWord foundWords
    unfold scanFrom
    split_ifs with h
    · apply readOnly_bind _ _ (readOnly_readTrieNode current)
      intro node
      cases node.children ⟨c.val, h⟩ with
      | none => exact readOnly_pure foundWords
      | some next =>
        apply readOnly_bind _ _ (readOnly_readTrieNode (some next))
        intro nextNode
        exact ih _ _ _
    · exact readOnly_pure foundWords

theorem readOnly_scanAll (password : Bytes) :
    ∀ foundWords : List Bytes, ReadOnly (scanAll password foundWords) := by
  induction password with
  | nil => intro foundWords; exact readOnly_pure foundWords
  | cons c rest ih =>
    intro foundWords
    unfold scanAll
    apply readOnly_bind _ _ readOnly_readRoot
    intro current
    apply readOnly_bind _ _ (readOnly_scanFrom _ _ _ _)
    intro found
    exact ih found

theorem readOnly_findWordsInPassword (password : Bytes) :
    ReadOnly (findWordsInPassword password) := by
  unfold findWordsInPassword
  split_ifs
  · exact readOnly_pure []
  · exact readOnly_scanAll password []

theorem readOnly_dictionaryCheck (password : Bytes) (result : StrengthResult) :
    ReadOnly (dictionaryCheck password result) := by
  unfold dictionaryCheck
  split_ifs
  · apply readOnly_bind _ _ (readOnly_findWordsInPassword password)
    intro dictionaryWords
    split_ifs
    · exact readOnly_pure _
    · exact readOnly_pure _
  · exact readOnly_pure _

theorem readOnly_analysePassword (rounds : Nat) (password : Bytes) :
    ReadOnly (analysePassword rounds password) := by
  unfold analysePassword
  simp only []
  split_ifs
  · exact readOnly_pure _
  · apply readOnly_bind _ _ (readOnly_contains rounds password)
    intro isCommon
    apply readOnly_bind _ _ (readOnly_dictionaryCheck password _)
    intro result
    exact readOnly_pure _

theorem hashLoop_eq (m : Memory) (password : Bytes) :
    ∀ hash : Int, hashLoop hash password m
      = (PasswordAnalyser.hashLoop m.capacity hash password).map fun h => (h, m) := by
  induction password with
  | nil => intro hash; rfl
  | cons c rest ih =>
    intro hash
    unfold hashLoop PasswordAnalyser.hashLoop
    rw [bind_of_eq readCapacity _ m m m.capacity rfl]
    cases hashStep m.capacity hash c with
    | none => rfl
    | some h => exact ih h

theorem containsLoop_of_chainList (password : Bytes) (m : Memory) (bound : Nat) :
    ∀ (current : Option Nat) (l : List Bytes), chainList bound m current = some l →
      ∀ rounds, bound ≤ rounds →
        containsLoop rounds password current m = some (chainContains password l, m) := by
  induction bound with
  | zero => intro current l h; simp [chainList] at h
  | succ bound ih =>
    intro current l h rounds hr
    obtain ⟨r, rfl⟩ : ∃ r, rounds = r + 1 := ⟨rounds - 1, by omega⟩
    cases current with
    | none =>
      simp only [chainList, Option.some.injEq] at h
      subst h
      rfl
    | some a =>
      simp only [chainList] at h
      cases hn : m.nodes[a]? with
      | none => simp [hn] at h
      | some node =>
        simp only [hn] at h
        cases hl : chainList bound m node.next with
        | none => simp [hl] at h
        | some l1 =>
          simp only [hl, Option.some.injEq] at h
          subst h
          have hread : readNode (some a) m = some (node, m) := by
            simp only [readNode, hn]
          unfold containsLoop
          rw [bind_of_eq _ _ m m node hread]
          by_cases hp : node.password = password
          · simp only [hp, if_true, chainContains]
            rfl
          · simp only [hp, if_false, chainContains]
            exact ih node.next l1 hl r (by omega)

theorem mem_bucket (index : Nat) (s : Bytes) :
    s ∈ bucket index ↔
      s ∈ weakPasswords ∧ PasswordAnalyser.hashFunction 100 s = some (index : Int) := by
  simp [bucket]

theorem contains_eq (m : Memory) (hm : tableOK m = true) (password : Bytes)
    (hp : password ≠ []) (rounds : Nat) (hr : 21 ≤ rounds) :
    contains rounds password m = some (decide (password ∈ weakPasswords), m) := by
  simp only [tableOK, Bool.and_eq_true, decide_eq_true_eq, List.all_eq_true,
    List.mem_range] at hm
  obtain ⟨hcap, htab⟩ := hm
  obtain ⟨index, hidx, h0, h1⟩ := hashFunction_inRange (show (0 : Int) < 100 by decide)
    (show 31 * ((100 : Int) - 1) + 255 ≤ INT_MAX by decide) password
  have hi := htab index.toNat (by omega)
  cases ht : m.table[index.toNat]? with
  | none => rw [ht] at hi; exact absurd hi (by simp)
  | some head =>
    rw [ht] at hi
    simp only [decide_eq_true_eq] at hi
    have hhash : hashFunction password m = some (index, m) := by
      unfold hashFunction
      rw [hashLoop_eq, hcap]
      have : PasswordAnalyser.hashLoop 100 0 password = some index := hidx
      rw [this]
      rfl
    have hread : readTable index m = some (head, m) := by
      simp only [readTable, h0, if_true, ht]
    unfold contains
    rw [if_neg (by simp [isEmpty_eq_false_of_ne hp]), bind_of_eq _ _ m m index hhash,
      bind_of_eq _ _ m m head hread,
      containsLoop_of_chainList password m 21 head _ hi rounds hr]
    congr 2
    rw [Bool.eq_iff_iff, chainContains_iff, mem_bucket]
    simp only [decide_eq_true_eq]
    have hcast : ((index.toNat : Nat) : Int) = index := Int.toNat_of_nonneg h0
    rw [hcast]
    exact ⟨fun h => h.1, fun h => ⟨h, hidx⟩⟩

theorem sameTrie_some (depth : Nat) (m : Memory) (p : Option Nat)
    (n : PasswordAnalyser.TrieNode) (h : sameTrie depth m p n = true) :
    ∃ d node, depth = d + 1 ∧ readTrieNode p m = some (node, m) ∧
      node.isEndOfWord = n.isEndOfWord ∧
      ∀ i : Fin 128,
        (node.children i = none ∧ n.children i = none) ∨
        ∃ b child, node.children i = some b ∧ n.children i = some child ∧
          sameTrie d m (some b) child = true := by
  cases depth with
  | zero => simp [sameTrie] at h
  | succ d =>
    cases p with
    | none => simp [sameTrie] at h
    | some a =>
      simp only [sameTrie] at h
      cases hn : m.trieNodes[a]? with
      | none => simp [hn] at h
      | some node =>
        simp only [hn, Bool.and_eq_true, beq_iff_eq, List.all_eq_true] at h
        refine ⟨d, node, rfl, by simp only [readTrieNode, hn], h.1, ?_⟩
        intro i
        have hi := h.2 i (List.mem_finRange i)
        cases hc : node.children i with
        | none =>
          cases hp : n.children i with
          | none => exact Or.inl ⟨rfl, rfl⟩
          | some child => simp [hc, hp] at hi
        | some b =>
          cases hp : n.children i with
          | none => simp [hc, hp] at hi
          | some child =>
            simp only [hc, hp] at hi
            exact Or.inr ⟨b, child, rfl, rfl, hi⟩

theorem scanFrom_eq_pure (m : Memory) (rest : Bytes) :
    ∀ (depth : Nat) (current : Option Nat) (n : PasswordAnalyser.TrieNode)
      (currentWord : Bytes) (foundWords : List Bytes),
      sameTrie depth m current n = true →
      scanFrom current currentWord rest foundWords m
        = some (PasswordAnalyser.scanFrom n currentWord rest foundWords, m) := by
  induction rest with
  | nil =>
    intro depth current n currentWord foundWords _
    cases n
    rfl
  | cons c rest ih =>
    intro depth current n currentWord foundWords hs
    obtain ⟨d, node, _, hread, _, hch⟩ := sameTrie_some depth m current n hs
    unfold scanFrom PasswordAnalyser.scanFrom
    by_cases h : c.val < 128
    · simp only [h, dite_true]
      rw [bind_of_eq _ _ m m node hread]
      rcases hch ⟨c.val, h⟩ with ⟨h1, h2⟩ | ⟨b, child, h1, h2, h3⟩
      · simp only [h1, h2]
        rfl
      · obtain ⟨d2, node2, _, hread2, hflag, _⟩ := sameTrie_some d m (some b) child h3
        simp only [h1, h2]
        rw [bind_of_eq _ _ m m node2 hread2, hflag]
        exact ih d (some b) child _ _ h3
    · simp only [h, dite_false]
      rfl

theorem scanAll_eq_pure (m : Memory) (depth : Nat) (n : PasswordAnalyser.TrieNode)
    (hs : sameTrie depth m m.root n = true) (password : Bytes) :
    ∀ foundWords : List Bytes,
      scanAll password foundWords m = some (PasswordAnalyser.scanAll n password foundWords, m) := by
  induction password with
  | nil => intro foundWords; rfl
  | cons c rest ih =>
    intro foundWords
    unfold scanAll PasswordAnalyser.scanAll
    rw [bind_of_eq readRoot _ m m m.root rfl,
      bind_of_eq _ _ m m _ (scanFrom_eq_pure m (c :: rest) depth m.root n [] foundWords hs)]
    exact ih _

theorem findWords_eq_pure (m : Memory) (depth : Nat) (t : DictionaryTrie)
    (hs : sameTrie depth m m.root t.root = true) (password : Bytes) :
    findWordsInPassword password m = some (t.findWordsInPassword password, m) := by
  unfold findWordsInPassword DictionaryTrie.findWordsInPassword
  split_ifs
  · rfl
  · exact scanAll_eq_pure m depth t.root hs password []

theorem dictionaryCheck_eq_pure (m : Memory) (depth : Nat) (t : DictionaryTrie)
    (hs : sameTrie depth m m.root t.root = true) (password : Bytes) (result : StrengthResult) :
    dictionaryCheck password result m
      = some (PasswordAnalyser.dictionaryCheck t password result, m) := by
  unfold dictionaryCheck PasswordAnalyser.dictionaryCheck
  by_cases h1 : hasLettersLoop password = true
  · rw [if_pos h1, if_pos h1, bind_of_eq _ _ m m _ (findWords_eq_pure m depth t hs password)]
    simp only []
    by_cases h2 : (!(t.findWordsInPassword password).isEmpty) = true
    · rw [if_pos h2, if_pos h2]
      rfl
    · rw [if_neg h2, if_neg h2]
      rfl
  · rw [if_neg h1, if_neg h1]
    rfl

theorem analysePassword_eq_pure (m : Memory) (hm : tableOK m = true) (depth : Nat)
    (hs : sameTrie depth m m.root (initializeDictionary DictionaryTrie.new).root = true)
    (password : Bytes) (rounds : Nat) (hr : 21 ≤ rounds) :
    ∃ res, PasswordAnalyser.analyse password = some res ∧
      analysePassword rounds password m = some (res, m) := by
  by_cases hp : password = []
  · subst hp
    exact ⟨_, (by decide : PasswordAnalyser.analyse [] =
      some { score := 0, strength := "Very Weak", feedback := ["✗ Password cannot be empty"] }),
      rfl⟩
  · refine ⟨_, analyse_eq password hp, ?_⟩
    unfold analysePassword
    simp only []
    rw [if_neg (by simp [isEmpty_eq_false_of_ne hp]),
      bind_of_eq _ _ m m _ (contains_eq m hm password hp rounds hr),
      bind_of_eq _ _ m m _ (dictionaryCheck_eq_pure m depth _ hs password _)]
    rfl

theorem constructed_ok :
    (constructed.map fun m =>
      tableOK m && sameTrie 10 m m.root (initializeDictionary DictionaryTrie.new).root)
      = some true := by
  decide!

end Heap

/-- C13: on the memory of the analyser built from the fixed lists, a call of
`analysePassword` (with at least 21 rounds allowed to the loop of `contains`, one
more than the 20 nodes) returns a result and leaves the memory as it was: `capacity`,
`table`, every `Node`, `root` and every `TrieNode`; a second call after it returns
the same score, label and feedback; the result is the one of `analyse`. On every
memory and for every bound, a call that returns leaves the memory unchanged.
`addPassword`, by contrast, does change the memory. -/
theorem analyse_deterministic (p : Bytes) (rounds : Nat) (hr : 21 ≤ rounds) :
    (∃ m res, Heap.constructed = some m ∧
      Heap.analysePassword rounds p m = some (res, m) ∧
      (Heap.analysePassword rounds p >>= fun first =>
        Heap.analysePassword rounds p >>= fun second => pure (first, second)) m
        = some ((res, res), m) ∧
      analyse p = some res) ∧
    (∀ (k : Nat) (m m1 : Heap.Memory) (res1 : StrengthResult),
      Heap.analysePassword k p m = some (res1, m1) → m1 = m) ∧
    ¬ Heap.ReadOnly (Heap.addPassword (lit "hello")) := by
  refine ⟨?_, fun k m m1 res1 h => Heap.readOnly_analysePassword k p m res1 m1 h, ?_⟩
  · obtain ⟨m, hm, hok⟩ := Option.map_eq_some'.1 Heap.constructed_ok
    simp only [Bool.and_eq_true] at hok
    obtain ⟨res, hres, hrun⟩ :=
      Heap.analysePassword_eq_pure m hok.1 10 hok.2 p rounds hr
    refine ⟨m, res, hm, hrun, ?_, hres⟩
    rw [Heap.bind_of_eq _ _ m m res hrun, Heap.bind_of_eq _ _ m m res hrun]
    rfl
  · intro hro
    have hrun : (Heap.Memory.fresh.bind fun m =>
        (Heap.addPassword (lit "hello") m).map fun out =>
          decide (out.2.nodes.length = m.nodes.length + 1)) = some true := by
      decide!
    obtain ⟨m, _, hm⟩ := Option.bind_eq_some.1 hrun
    obtain ⟨out, hout, hlen⟩ := Option.map_eq_some'.1 hm
    have := hro m out.1 out.2 hout
    rw [this] at hlen
    simp at hlen

/-- Witness of C13 at the password `mypassword1` and 21 rounds. -/
theorem analyse_deterministic_witness :
    21 ≤ 21 ∧
    ((∃ m res, Heap.constructed = some m ∧
      Heap.analysePassword 21 (lit "mypassword1") m = some (res, m) ∧
      (Heap.analysePassword 21 (lit "mypassword1") >>= fun first =>
        Heap.analysePassword 21 (lit "mypassword1") >>= fun second => pure (first, second)) m
        = some ((res, res), m) ∧
      analyse (lit "mypassword1") = some res) ∧
    (∀ (k : Nat) (m m1 : Heap.Memory) (res1 : StrengthResult),
      Heap.analysePassword k (lit "mypassword1") m = some (res1, m1) → m1 = m) ∧
    ¬ Heap.ReadOnly (Heap.addPassword (lit "hello"))) :=
  ⟨by decide, analyse_deterministic (lit "mypassword1") 21 (by decide)⟩

/-! ## Claims on the dictionary trie -/

/-- C5: in the dictionary built from the 15 fixed words, the search in
`mypassword1` reports `password` and the search in `xyz` reports nothing. -/
theorem findWords_examples :
    commonWords.length = 15 ∧
    lit "password" ∈
      (initializeDictionary DictionaryTrie.new).findWordsInPassword (lit "mypassword1") ∧
    (initializeDictionary DictionaryTrie.new).findWordsInPassword (lit "xyz") = [] := by
  refine ⟨rfl, ?_, ?_⟩ <;> decide

/-! ## Claims on the hash table -/

/-- The hash table where `hash * 31 + byte` stays in `int`: for a positive capacity
`cap` with `31 * (cap - 1) + 255 ≤ INT_MAX` (the default 100 is one), every sequence
of `addPassword` calls succeeds and, on the table it leaves, `contains(s)` is true
exactly when `s` is non-empty and was added; `contains("")` is false and
`addPassword("")` changes nothing on any table; adding a string that was already
added changes no `contains` result. -/
theorem hashTable_contains_iff_added (cap : Int) (hpos : 0 < cap)
    (hfit : 31 * (cap - 1) + 255 ≤ INT_MAX) (adds : List Bytes) :
    ∃ t, (PasswordHashTable.new cap).addAll adds = some t ∧
      (∀ s, t.contains s = some (decide (s ≠ [] ∧ s ∈ adds))) ∧
      (∀ t0 : PasswordHashTable, t0.contains (lit "") = some false) ∧
      (∀ t0 : PasswordHashTable, t0.addPassword (lit "") = some t0) ∧
      (∀ p, p ∈ adds → ∃ t2, t.addPassword p = some t2 ∧ ∀ s, t2.contains s = t.contains s) := by
  obtain ⟨t, h1, ht⟩ := holds_addAll hpos hfit adds (PasswordHashTable.new cap) []
    (holds_new cap)
  rw [List.nil_append] at ht
  refine ⟨t, h1, contains_of_holds hpos hfit ht, fun _ => rfl, fun _ => rfl, ?_⟩
  intro p hp
  obtain ⟨t2, h2, ht2⟩ := holds_addPassword hpos hfit ht p
  refine ⟨t2, h2, ?_⟩
  intro s
  rw [contains_of_holds hpos hfit ht2 s, contains_of_holds hpos hfit ht s]
  congr 1
  rw [Bool.eq_iff_iff]
  simp only [decide_eq_true_eq, List.mem_append, List.mem_cons, List.not_mem_nil, or_false]
  constructor
  · rintro ⟨a, b | b⟩
    · exact ⟨a, b⟩
    · exact ⟨a, b ▸ hp⟩
  · rintro ⟨a, b⟩
    exact ⟨a, Or.inl b⟩

/-- The table of the default capacity 100 after the three additions `admin`,
`qwerty`, `admin`. -/
theorem hashTable_contains_iff_added_witness :
    (0 : Int) < 100 ∧ 31 * ((100 : Int) - 1) + 255 ≤ INT_MAX ∧
    ∃ t, (PasswordHashTable.new 100).addAll [lit "admin", lit "qwerty", lit "admin"] = some t ∧
      (∀ s, t.contains s
        = some (decide (s ≠ [] ∧ s ∈ [lit "admin", lit "qwerty", lit "admin"]))) ∧
      (∀ t0 : PasswordHashTable, t0.contains (lit "") = some false) ∧
      (∀ t0 : PasswordHashTable, t0.addPassword (lit "") = some t0) ∧
      (∀ p, p ∈ [lit "admin", lit "qwerty", lit "admin"] →
        ∃ t2, t.addPassword p = some t2 ∧ ∀ s, t2.contains s = t.contains s) :=
  ⟨by decide, by decide,
    hashTable_contains_iff_added 100 (by decide) (by decide)
      [lit "admin", lit "qwerty", lit "admin"]⟩

/-- C7 at the positive capacity 200000000: the hash of `zzzzzz` is 116425210 after
five characters, and the sixth round computes 116425210 * 31 + 122 = 3609181632,
which does not fit `int`; `addPassword("zzzzzz")` has no defined result, so
`contains("zzzzzz")` is not true after the addition, though the string is non-empty
and was added. -/
theorem hashTable_large_capacity_overflow :
    (0 : Int) < 200000000 ∧
    hashFunction 200000000 (lit "zzzzz") = some 116425210 ∧
    hashFunction 200000000 (lit "zzzzzz") = none ∧
    ¬ ∃ t, (PasswordHashTable.new 200000000).addAll [lit "zzzzzz"] = some t ∧
        t.contains (lit "zzzzzz") = some true := by
  refine ⟨by decide, by decide, by decide, ?_⟩
  have h : ((PasswordHashTable.new 200000000).addAll [lit "zzzzzz"]).isSome = false := by
    decide
  rintro ⟨t, ht, _⟩
  rw [ht] at h
  exact absurd h (by simp)

theorem accepts_nil (n : TrieNode) : n.accepts [] = n.isEndOfWord := rfl

theorem accepts_cons_high (n : TrieNode) (c : Byte) (rest : Bytes) (h : ¬ c.val < 128) :
    n.accepts (c :: rest) = false := by
  simp [TrieNode.accepts, TrieNode.walk, h]

theorem accepts_cons_none (n : TrieNode) (c : Byte) (rest : Bytes) (h : c.val < 128)
    (hch : n.children ⟨c.val, h⟩ = none) : n.accepts (c :: rest) = false := by
  simp [TrieNode.accepts, TrieNode.walk, h, hch]

theorem accepts_cons_some (n m : TrieNode) (c : Byte) (rest : Bytes) (h : c.val < 128)
    (hch : n.children ⟨c.val, h⟩ = some m) : n.accepts (c :: rest) = m.accepts rest := by
  simp [TrieNode.accepts, TrieNode.walk, h, hch]

theorem accepts_new (p : Bytes) : TrieNode.new.accepts p = false := by
  cases p with
  | nil => rfl
  | cons c rest =>
    by_cases h : c.val < 128
    · exact accepts_cons_none _ c rest h rfl
    · exact accepts_cons_high _ c rest h

theorem accepts_insertLoop (w : Bytes) (hw : ∀ b ∈ w, b.val < 128) :
    ∀ (n : TrieNode) (p : Bytes),
      (n.insertLoop w).accepts p = (decide (p = w) || n.accepts p) := by
  induction w with
  | nil =>
    intro n p
    obtain ⟨ch, e⟩ := n
    cases p with
    | nil => simp [TrieNode.insertLoop, accepts_nil, TrieNode.isEndOfWord]
    | cons d ps =>
      simp only [TrieNode.insertLoop, TrieNode.accepts, TrieNode.walk, TrieNode.children]
      simp
  | cons c ws ih =>
    intro n p
    obtain ⟨ch, e⟩ := n
    have hc : c.val < 128 := hw c (List.mem_cons_self _ _)
    have hws : ∀ b ∈ ws, b.val < 128 := fun b hb => hw b (List.mem_cons_of_mem _ hb)
    cases p with
    | nil => simp [TrieNode.insertLoop, hc, accepts_nil, TrieNode.isEndOfWord]
    | cons d ps =>
      by_cases hd : d.val < 128
      · by_cases hdc : d = c
        · subst hdc
          cases hch : ch ⟨d.val, hd⟩ with
          | none =>
            rw [accepts_cons_none (TrieNode.mk ch e) d ps hd hch]
            rw [accepts_cons_some _ (TrieNode.new.insertLoop ws) d ps hd
              (by simp [TrieNode.insertLoop, hd, TrieNode.children, hch])]
            rw [ih hws, accepts_new]
            simp
          | some m =>
            rw [accepts_cons_some (TrieNode.mk ch e) m d ps hd hch]
            rw [accepts_cons_some _ (m.insertLoop ws) d ps hd
              (by simp [TrieNode.insertLoop, hd, TrieNode.children, hch])]
            rw [ih hws]
            simp
        · have hne : (⟨d.val, hd⟩ : Fin 128) ≠ ⟨c.val, hc⟩ := by
            intro h
            exact hdc (Fin.ext (Fin.mk.inj h))
          have hdec : decide (d :: ps = c :: ws) = false := by simp [hdc]
          rw [hdec, Bool.false_or]
          cases hch : ch ⟨d.val, hd⟩ with
          | none =>
            rw [accepts_cons_none (TrieNode.mk ch e) d ps hd hch]
            exact accepts_cons_none _ d ps hd
              (by simp [TrieNode.insertLoop, hc, TrieNode.children, hne, hch])
          | some m =>
            rw [accepts_cons_some (TrieNode.mk ch e) m d ps hd hch]
            exact accepts_cons_some _ m d ps hd
              (by simp [TrieNode.insertLoop, hc, TrieNode.children, hne, hch])
      · have hdc : d ≠ c := fun h => hd (h ▸ hc)
        rw [accepts_cons_high _ d ps hd, accepts_cons_high _ d ps hd]
        simp [hdc]

theorem accepts_insertAll (W : List Bytes) (hW : ∀ w ∈ W, w ≠ [] ∧ ∀ b ∈ w, b.val < 128) :
    ∀ (t : DictionaryTrie) (p : Bytes),
      (t.insertAll W).root.accepts p = (decide (p ∈ W) || t.root.accepts p) := by
  induction W with
  | nil => intro t p; simp [DictionaryTrie.insertAll]
  | cons w rest ih =>
    intro t p
    have hw := hW w (List.mem_cons_self _ _)
    have hrest : ∀ v ∈ rest, v ≠ [] ∧ ∀ b ∈ v, b.val < 128 :=
      fun v hv => hW v (List.mem_cons_of_mem _ hv)
    have hstep : (t.insertAll (w :: rest)) = (t.insert w).insertAll rest := rfl
    rw [hstep, ih hrest]
    have hins : (t.insert w).root = t.root.insertLoop w := by
      simp [DictionaryTrie.insert, isEmpty_eq_false_of_ne hw.1]
    rw [hins, accepts_insertLoop w hw.2]
    by_cases h1 : p = w <;> by_cases h2 : p ∈ rest <;> simp [h1, h2]

theorem prefixHits_false (cw rest : Bytes) : prefixHits (fun _ => false) cw rest = [] := by
  induction rest generalizing cw with
  | nil => rfl
  | cons c rest ih => simp [prefixHits, ih]

theorem scanFrom_eq (rest : Bytes) :
    ∀ (n : TrieNode) (cw : Bytes) (found : List Bytes),
      scanFrom n cw rest found = found ++ prefixHits n.accepts cw rest := by
  induction rest with
  | nil => intro n cw found; simp [scanFrom, prefixHits]
  | cons c rest ih =>
    intro n cw found
    by_cases h : c.val < 128
    · cases hch : n.children ⟨c.val, h⟩ with
      | none =>
        have hf : (fun p => n.accepts (c :: p)) = fun _ => false :=
          funext fun p => accepts_cons_none n c p h hch
        simp only [scanFrom, h, hch, prefixHits, hf, prefixHits_false,
          accepts_cons_none n c [] h hch]
        simp
      | some next =>
        have hf : (fun p => n.accepts (c :: p)) = next.accepts :=
          funext fun p => accepts_cons_some n next c p h hch
        have h1 : n.accepts [c] = next.isEndOfWord := by
          rw [accepts_cons_some n next c [] h hch, accepts_nil]
        simp only [scanFrom, h, hch, prefixHits, hf, h1, ih, dite_true]
        split_ifs <;> simp
    · have hf : (fun p => n.accepts (c :: p)) = fun _ => false :=
        funext fun p => accepts_cons_high n c p h
      simp only [scanFrom, h, prefixHits, hf, prefixHits_false, accepts_cons_high n c [] h]
      simp

theorem scanAll_eq (root : TrieNode) (s : Bytes) :
    ∀ found : List Bytes, scanAll root s found = found ++ suffixHits root.accepts s := by
  induction s with
  | nil => intro found; simp [scanAll, suffixHits]
  | cons c rest ih =>
    intro found
    simp only [scanAll, suffixHits, ih, scanFrom_eq, List.append_assoc]

theorem filter_range_split {β : Type} (P : Nat → Bool) (F : Nat → β) (m : Nat) :
    ((List.range (m + 1)).filter P).map F =
      (if P 0 then [F 0] else []) ++
        ((List.range (m + 1)).filter fun k => decide (1 ≤ k) && P k).map F := by
  rw [List.range_succ_eq_map]
  simp only [List.filter_cons, List.filter_map]
  have hcongr : List.filter ((fun k => decide (1 ≤ k) && P k) ∘ Nat.succ) (List.range m)
      = List.filter (P ∘ Nat.succ) (List.range m) := by
    apply List.filter_congr
    intro k _
    simp
  rw [hcongr]
  cases P 0 <;> simp

theorem prefixHits_eq_range (s : Bytes) :
    ∀ (acc : Bytes → Bool) (cw : Bytes),
      prefixHits acc cw s =
        ((List.range (s.length + 1)).filter fun k =>
            decide (1 ≤ k) && (decide (3 ≤ cw.length + k) && acc (s.take k))).map
          fun k => cw ++ s.take k := by
  induction s with
  | nil => intro acc cw; simp [prefixHits, List.range_succ]
  | cons c rest ih =>
    intro acc cw
    rw [prefixHits, ih]
    rw [List.length_cons, List.range_succ_eq_map (rest.length + 1)]
    simp only [List.filter_cons, List.filter_map, List.map_map]
    have h0 : (decide (1 ≤ 0) && (decide (3 ≤ cw.length + 0) &&
        acc (List.take 0 (c :: rest)))) = false := by simp
    rw [h0]
    simp only [Bool.false_eq_true, if_false]
    have hsplit := filter_range_split
      (fun k => decide (3 ≤ cw.length + (k + 1)) && acc (c :: rest.take k))
      (fun k => cw ++ c :: rest.take k) rest.length
    have hL : List.map ((fun k => cw ++ List.take k (c :: rest)) ∘ Nat.succ)
        (List.filter ((fun k => decide (1 ≤ k) &&
          (decide (3 ≤ cw.length + k) && acc (List.take k (c :: rest)))) ∘ Nat.succ)
          (List.range (rest.length + 1)))
        = List.map (fun k => cw ++ c :: rest.take k)
          (List.filter (fun k => decide (3 ≤ cw.length + (k + 1)) && acc (c :: rest.take k))
            (List.range (rest.length + 1))) := by
      congr 1
      apply List.filter_congr
      intro k _
      simp
    rw [List.map_map, hL, hsplit]
    congr 1
    · simp [Bool.and_comm]
    · have hm : (fun k => (cw ++ [c]) ++ List.take k rest)
          = fun k => cw ++ c :: List.take k rest := by
        funext k
        simp
      rw [hm]
      congr 1
      apply List.filter_congr
      intro k _
      simp only [List.length_append, List.length_singleton]
      congr 2
      rw [Nat.add_assoc, Nat.add_comm 1 k]

theorem suffixHits_eq_flatMap (acc : Bytes → Bool) (s : Bytes) :
    suffixHits acc s = (List.range s.length).flatMap fun i => prefixHits acc [] (s.drop i) := by
  induction s with
  | nil => rfl
  | cons c rest ih =>
    rw [suffixHits, ih, List.length_cons, List.range_succ_eq_map, List.flatMap_cons,
      List.flatMap_map]
    rfl

theorem insertAll_new_accepts (W : List Bytes)
    (hW : ∀ w ∈ W, w ≠ [] ∧ ∀ b ∈ w, b.val < 128) :
    (DictionaryTrie.new.insertAll W).root.accepts = fun p => decide (p ∈ W) := by
  funext p
  rw [accepts_insertAll W hW]
  have h : DictionaryTrie.new.root.accepts p = false := accepts_new p
  rw [h, Bool.or_false]

theorem findWords_eq_suffixHits (t : DictionaryTrie) (c : Bytes) :
    t.findWordsInPassword c = suffixHits t.root.accepts c := by
  cases c with
  | nil => rfl
  | cons d rest =>
    simp only [DictionaryTrie.findWordsInPassword, List.isEmpty_cons, Bool.false_eq_true,
      if_false, scanAll_eq, List.nil_append]

theorem suffixHits_mem_eq_naiveFind (W : List Bytes) (c : Bytes) :
    suffixHits (fun p => decide (p ∈ W)) c = naiveFind W c := by
  rw [suffixHits_eq_flatMap, naiveFind]
  congr 1
  funext i
  rw [prefixHits_eq_range, List.length_drop]
  have hm : (fun k => ([] : Bytes) ++ List.take k (List.drop i c))
      = fun k => List.take k (List.drop i c) := by
    funext k
    simp
  rw [hm]
  congr 1
  apply List.filter_congr
  intro k _
  by_cases h3 : 3 ≤ k
  · have h1 : 1 ≤ k := by omega
    simp [h3, h1]
  · simp [h3]

/-- C6: for a trie built from a list `W` of non-empty words with all bytes below
128, `findWordsInPassword(c)` is the naive enumeration of the substrings of `c` of
length at least 3 that are in `W`, by start offset and then by length, without
deduplication, for every byte string `c`; it is empty for the empty candidate. -/
theorem findWords_eq_naive (W : List Bytes) (hW : ∀ w ∈ W, w ≠ [] ∧ ∀ b ∈ w, b.val < 128)
    (c : Bytes) :
    (DictionaryTrie.new.insertAll W).findWordsInPassword c = naiveFind W c ∧
    (DictionaryTrie.new.insertAll W).findWordsInPassword [] = [] := by
  refine ⟨?_, rfl⟩
  rw [findWords_eq_suffixHits, insertAll_new_accepts W hW, suffixHits_mem_eq_naiveFind]

/-- Witness of C6: the words `abc`, `abcd`, `bcd` and the candidate `abcdabc`, where
`abc` occurs at two offsets and is reported twice. -/
theorem findWords_eq_naive_witness :
    (∀ w ∈ [lit "abc", lit "abcd", lit "bcd"], w ≠ [] ∧ ∀ b ∈ w, b.val < 128) ∧
    ((DictionaryTrie.new.insertAll [lit "abc", lit "abcd", lit "bcd"]).findWordsInPassword
        (lit "abcdabc")
      = naiveFind [lit "abc", lit "abcd", lit "bcd"] (lit "abcdabc") ∧
    (DictionaryTrie.new.insertAll [lit "abc", lit "abcd", lit "bcd"]).findWordsInPassword []
      = []) ∧
    naiveFind [lit "abc", lit "abcd", lit "bcd"] (lit "abcdabc")
      = [lit "abc", lit "abcd", lit "bcd", lit "abc"] :=
  ⟨by decide,
    findWords_eq_naive [lit "abc", lit "abcd", lit "bcd"] (by decide) (lit "abcdabc"),
    by decide⟩

theorem walk_of_accepts (n : TrieNode) (w : Bytes) (h : n.accepts w = true) :
    ∃ m, n.walk w = some m := by
  unfold TrieNode.accepts at h
  cases hw : n.walk w with
  | none => rw [hw] at h; exact absurd h (by simp)
  | some m => exact ⟨m, rfl⟩

theorem accepts_of_walk (n m : TrieNode) (w : Bytes) (h : n.walk w = some m) :
    n.accepts w = m.isEndOfWord := by
  unfold TrieNode.accepts
  rw [h]

theorem trie_invariant_of_valid (W : List Bytes)
    (hW : ∀ w ∈ W, w ≠ [] ∧ ∀ b ∈ w, b.val < 128) :
    (∀ w ∈ W, ∃ m, (DictionaryTrie.new.insertAll W).root.walk w = some m) ∧
    (∀ (w : Bytes) (m : TrieNode), (DictionaryTrie.new.insertAll W).root.walk w = some m →
      (m.isEndOfWord = true ↔ w ∈ W)) := by
  have hacc := insertAll_new_accepts W hW
  constructor
  · intro w hw
    apply walk_of_accepts
    rw [hacc]
    simpa using hw
  · intro w m hm
    rw [← accepts_of_walk _ m w hm, hacc]
    simp

/-- C14: after the insertion of a list `W` of non-empty words with all bytes below
128 into an empty trie, the path of every word of `W` exists from the root, and a
non-empty byte string whose path exists ends on a node flagged `isEndOfWord`
exactly when it is a member of `W`; after one more `insert` of such a word both
hold again, for the list with this word added. -/
theorem trie_invariant (W : List Bytes) (hW : ∀ w ∈ W, w ≠ [] ∧ ∀ b ∈ w, b.val < 128) :
    ((∀ w ∈ W, ∃ m, (DictionaryTrie.new.insertAll W).root.walk w = some m) ∧
      (∀ (w : Bytes) (m : TrieNode), w ≠ [] →
        (DictionaryTrie.new.insertAll W).root.walk w = some m →
        (m.isEndOfWord = true ↔ w ∈ W))) ∧
    (∀ v : Bytes, v ≠ [] → (∀ b ∈ v, b.val < 128) →
      (∀ w ∈ W ++ [v], ∃ m, ((DictionaryTrie.new.insertAll W).insert v).root.walk w = some m) ∧
      (∀ (w : Bytes) (m : TrieNode), w ≠ [] →
        ((DictionaryTrie.new.insertAll W).insert v).root.walk w = some m →
        (m.isEndOfWord = true ↔ w ∈ W ++ [v]))) := by
  constructor
  · obtain ⟨h1, h2⟩ := trie_invariant_of_valid W hW
    exact ⟨h1, fun w m _ hm => h2 w m hm⟩
  · intro v hv hvb
    have hstep : (DictionaryTrie.new.insertAll W).insert v
        = DictionaryTrie.new.insertAll (W ++ [v]) := by
      simp [DictionaryTrie.insertAll, List.foldl_append]
    have hW2 : ∀ w ∈ W ++ [v], w ≠ [] ∧ ∀ b ∈ w, b.val < 128 := by
      intro w hw
      rcases List.mem_append.1 hw with h | h
      · exact hW w h
      · rw [List.mem_singleton.1 h]
        exact ⟨hv, hvb⟩
    rw [hstep]
    obtain ⟨h1, h2⟩ := trie_invariant_of_valid (W ++ [v]) hW2
    exact ⟨h1, fun w m _ hm => h2 w m hm⟩

/-- Witness of C14: the words `abc` and `abcd`, then the further word `ab`. -/
theorem trie_invariant_witness :
    (∀ w ∈ [lit "abc", lit "abcd"], w ≠ [] ∧ ∀ b ∈ w, b.val < 128) ∧
    ((∀ w ∈ [lit "abc", lit "abcd"],
        ∃ m, (DictionaryTrie.new.insertAll [lit "abc", lit "abcd"]).root.walk w = some m) ∧
      (∀ (w : Bytes) (m : TrieNode), w ≠ [] →
        (DictionaryTrie.new.insertAll [lit "abc", lit "abcd"]).root.walk w = some m →
        (m.isEndOfWord = true ↔ w ∈ [lit "abc", lit "abcd"]))) ∧
    (∀ v : Bytes, v ≠ [] → (∀ b ∈ v, b.val < 128) →
      (∀ w ∈ [lit "abc", lit "abcd"] ++ [v],
        ∃ m, ((DictionaryTrie.new.insertAll [lit "abc", lit "abcd"]).insert v).root.walk w
          = some m) ∧
      (∀ (w : Bytes) (m : TrieNode), w ≠ [] →
        ((DictionaryTrie.new.insertAll [lit "abc", lit "abcd"]).insert v).root.walk w = some m →
        (m.isEndOfWord = true ↔ w ∈ [lit "abc", lit "abcd"] ++ [v]))) :=
  ⟨by decide, trie_invariant [lit "abc", lit "abcd"] (by decide)⟩

theorem insertLoop_filter (w : Bytes) :
    ∀ n : TrieNode,
      n.insertLoop w = n.insertLoop (w.filter fun b => decide (b.val < 128)) := by
  induction w with
  | nil => intro n; rfl
  | cons c rest ih =>
    intro n
    obtain ⟨ch, e⟩ := n
    by_cases hc : c.val < 128
    · have hf : (c :: rest).filter (fun b => decide (b.val < 128))
          = c :: rest.filter (fun b => decide (b.val < 128)) := by
        simp [List.filter_cons, hc]
      rw [hf]
      simp only [TrieNode.insertLoop, hc, dite_true]
      congr 1
      funext i
      split_ifs
      · rw [ih]
      · rfl
    · have hf : (c :: rest).filter (fun b => decide (b.val < 128))
          = rest.filter (fun b => decide (b.val < 128)) := by
        simp [List.filter_cons, hc]
      rw [hf, ← ih]
      simp only [TrieNode.insertLoop, hc, dite_false]

theorem scanFrom_flag (ch : Fin 128 → Option TrieNode) (e1 e2 : Bool) (cw s : Bytes)
    (found : List Bytes) :
    scanFrom (TrieNode.mk ch e1) cw s found = scanFrom (TrieNode.mk ch e2) cw s found := by
  cases s with
  | nil => rfl
  | cons c rest => simp only [scanFrom, TrieNode.children]

theorem scanAll_flag (ch : Fin 128 → Option TrieNode) (e1 e2 : Bool) (s : Bytes) :
    ∀ found : List Bytes,
      scanAll (TrieNode.mk ch e1) s found = scanAll (TrieNode.mk ch e2) s found := by
  induction s with
  | nil => intro found; rfl
  | cons c rest ih =>
    intro found
    simp only [scanAll]
    rw [scanFrom_flag ch e1 e2, ih]

theorem findWords_insertLoop_nil (t : DictionaryTrie) (c : Bytes) :
    (DictionaryTrie.mk (t.root.insertLoop [])).findWordsInPassword c
      = t.findWordsInPassword c := by
  obtain ⟨⟨ch, e⟩⟩ := t
  simp only [DictionaryTrie.findWordsInPassword, TrieNode.insertLoop]
  split_ifs
  · rfl
  · exact scanAll_flag ch true e c []

/-- C15: for every trie, every non-empty word `w` and every candidate `c`,
`findWordsInPassword(c)` is the same after `insert(w)` as after the insertion of
`w` without its bytes from 128 on; the tree after `insert(w)` is the one the loop
builds from the bytes below 128 alone; and a word made of bytes from 128 on only
changes no result of `findWordsInPassword`. -/
theorem insert_skips_high_bytes (t : DictionaryTrie) (w : Bytes) (hw : w ≠ []) (c : Bytes) :
    (t.insert w).findWordsInPassword c
      = (t.insert (w.filter fun b => decide (b.val < 128))).findWordsInPassword c ∧
    (t.insert w).root = t.root.insertLoop (w.filter fun b => decide (b.val < 128)) ∧
    ((∀ b ∈ w, 128 ≤ b.val) → (t.insert w).findWordsInPassword c = t.findWordsInPassword c) := by
  have hroot : (t.insert w) = DictionaryTrie.mk
      (t.root.insertLoop (w.filter fun b => decide (b.val < 128))) := by
    simp only [DictionaryTrie.insert, isEmpty_eq_false_of_ne hw, Bool.false_eq_true, if_false]
    rw [← insertLoop_filter]
  refine ⟨?_, by rw [hroot], ?_⟩
  · by_cases hf : (w.filter fun b => decide (b.val < 128)) = []
    · rw [hroot, hf]
      simp only [DictionaryTrie.insert, List.isEmpty_nil, if_true]
      exact findWords_insertLoop_nil t c
    · rw [hroot]
      simp only [DictionaryTrie.insert, isEmpty_eq_false_of_ne hf, Bool.false_eq_true, if_false]
  · intro hall
    have hf : (w.filter fun b => decide (b.val < 128)) = [] := by
      rw [List.filter_eq_nil_iff]
      intro b hb
      have := hall b hb
      simp only [decide_eq_true_eq]
      omega
    rw [hroot, hf]
    exact findWords_insertLoop_nil t c

/-- Witness of C15: the word `c`, byte 200, `a`, `t` inserted into the empty trie,
searched in `cat`. -/
theorem insert_skips_high_bytes_witness :
    ([99, 200, 97, 116] : Bytes) ≠ [] ∧
    ((DictionaryTrie.new.insert [99, 200, 97, 116]).findWordsInPassword (lit "cat")
      = (DictionaryTrie.new.insert
          (([99, 200, 97, 116] : Bytes).filter fun b => decide (b.val < 128))).findWordsInPassword
          (lit "cat") ∧
    (DictionaryTrie.new.insert [99, 200, 97, 116]).root
      = DictionaryTrie.new.root.insertLoop
          (([99, 200, 97, 116] : Bytes).filter fun b => decide (b.val < 128)) ∧
    ((∀ b ∈ ([99, 200, 97, 116] : Bytes), 128 ≤ b.val) →
      (DictionaryTrie.new.insert [99, 200, 97, 116]).findWordsInPassword (lit "cat")
        = DictionaryTrie.new.findWordsInPassword (lit "cat"))) ∧
    (DictionaryTrie.new.insert [99, 200, 97, 116]).findWordsInPassword (lit "cat")
      = [lit "cat"] :=
  ⟨by decide, insert_skips_high_bytes DictionaryTrie.new [99, 200, 97, 116] (by decide)
    (lit "cat"), by decide⟩

/-! ## The dictionary check -/

theorem mem_naiveFind (W : List Bytes) (p x : Bytes) :
    x ∈ naiveFind W p ↔ x ∈ W ∧ 3 ≤ x.length ∧ x <:+: p := by
  unfold naiveFind
  simp only [List.mem_flatMap, List.mem_map, List.mem_filter, List.mem_range,
    Bool.and_eq_true, decide_eq_true_eq]
  constructor
  · rintro ⟨i, hi, k, ⟨hk, h3, hW⟩, rfl⟩
    refine ⟨hW, ?_, ?_⟩
    · rw [List.length_take, List.length_drop]
      omega
    · exact List.infix_iff_prefix_suffix.2 ⟨p.drop i, List.take_prefix _ _, List.drop_suffix _ _⟩
  · rintro ⟨hW, h3, ⟨a, b, hab⟩⟩
    have hlen : p.length = a.length + x.length + b.length := by
      rw [← hab]
      simp only [List.length_append]
    have htake : List.take x.length (List.drop a.length p) = x := by
      rw [← hab, List.append_assoc, List.drop_left, List.take_left]
    refine ⟨a.length, by omega, x.length, ⟨by omega, h3, ?_⟩, htake⟩
    rw [htake]
    exact hW

theorem dictionary_eq_naiveFind (p : Bytes) :
    (initializeDictionary DictionaryTrie.new).findWordsInPassword p = naiveFind commonWords p := by
  have hW : ∀ w ∈ commonWords, w ≠ [] ∧ ∀ b ∈ w, b.val < 128 := by decide
  unfold initializeDictionary
  rw [findWords_eq_suffixHits, insertAll_new_accepts commonWords hW, suffixHits_mem_eq_naiveFind]

theorem dictionary_nonempty_iff (p : Bytes) :
    (initializeDictionary DictionaryTrie.new).findWordsInPassword p ≠ [] ↔
      embedsDictionaryWord p := by
  have h3 : ∀ w ∈ commonWords, 3 ≤ w.length := by decide
  rw [dictionary_eq_naiveFind, embedsDictionaryWord]
  constructor
  · intro hne
    obtain ⟨x, hx⟩ := List.exists_mem_of_ne_nil _ hne
    obtain ⟨hW, _, hin⟩ := (mem_naiveFind commonWords p x).1 hx
    exact ⟨x, hW, hin⟩
  · rintro ⟨w, hW, hin⟩
    exact List.ne_nil_of_mem ((mem_naiveFind commonWords p w).2 ⟨hW, h3 w hW, hin⟩)

theorem hasLettersLoop_iff (p : Bytes) :
    hasLettersLoop p = true ↔ ∃ b ∈ p, isalpha b = true := by
  induction p with
  | nil => simp [hasLettersLoop]
  | cons c rest ih =>
    by_cases hc : isalpha c = true
    · simp [hasLettersLoop, hc]
    · simp [hasLettersLoop, hc, ih]

theorem hasLetters_of_embeds (p : Bytes) (h : embedsDictionaryWord p) :
    hasLettersLoop p = true := by
  have hal : ∀ w ∈ commonWords, ∃ b ∈ w, isalpha b = true := by decide
  obtain ⟨w, hW, hin⟩ := h
  obtain ⟨b, hb, hab⟩ := hal w hW
  exact (hasLettersLoop_iff p).2 ⟨b, hin.subset hb, hab⟩

theorem dictionaryCheck_eq (p : Bytes) (r : StrengthResult) [Decidable (embedsDictionaryWord p)] :
    dictionaryCheck (initializeDictionary DictionaryTrie.new) p r
      = if embedsDictionaryWord p then dictionaryPenalty r else r := by
  unfold dictionaryCheck
  simp only []
  by_cases he : embedsDictionaryWord p
  · have hne := (dictionary_nonempty_iff p).2 he
    have hemp : ((initializeDictionary DictionaryTrie.new).findWordsInPassword p).isEmpty
        = false := by
      cases hf : (initializeDictionary DictionaryTrie.new).findWordsInPassword p with
      | nil => exact absurd hf hne
      | cons _ _ => rfl
    rw [if_pos he, if_pos (hasLetters_of_embeds p he), hemp]
    rfl
  · have hnil : (initializeDictionary DictionaryTrie.new).findWordsInPassword p = [] := by
      by_contra hne
      exact he ((dictionary_nonempty_iff p).1 hne)
    rw [if_neg he, hnil]
    simp only [List.isEmpty_nil, Bool.not_true, Bool.false_eq_true, if_false, ite_self]

/-- C16: a non-empty password gets the dictionary penalty (`max(0, score - 2)` and
the warning line) exactly when one of the 15 dictionary words occurs in it as a
contiguous case-sensitive substring: the analysis is the pipeline with the penalty
put in under this condition; `findWordsInPassword` is non-empty under the same
condition, and then the password contains a letter, so the test of `hasLetters`
changes nothing. -/
theorem dictionary_penalty_iff (p : Bytes) (h : p ≠ []) :
    commonWords.length = 15 ∧
    analyse p = some (determineStrength (longBonus p
      (if embedsDictionaryWord p then dictionaryPenalty (resultBeforeDictionary p)
        else resultBeforeDictionary p))) ∧
    ((initializeDictionary DictionaryTrie.new).findWordsInPassword p ≠ [] ↔
      embedsDictionaryWord p) ∧
    ((initializeDictionary DictionaryTrie.new).findWordsInPassword p ≠ [] →
      hasLettersLoop p = true) := by
  refine ⟨rfl, ?_, dictionary_nonempty_iff p, ?_⟩
  · rw [analyse_eq p h, dictionaryCheck_eq]
    rfl
  · intro hne
    exact hasLetters_of_embeds p ((dictionary_nonempty_iff p).1 hne)

/-- Witness of C16 at the password `mypassword1`, which embeds `password`. -/
theorem dictionary_penalty_iff_witness :
    lit "mypassword1" ≠ [] ∧
    (commonWords.length = 15 ∧
    analyse (lit "mypassword1") = some (determineStrength (longBonus (lit "mypassword1")
      (if embedsDictionaryWord (lit "mypassword1")
        then dictionaryPenalty (resultBeforeDictionary (lit "mypassword1"))
        else resultBeforeDictionary (lit "mypassword1")))) ∧
    ((initializeDictionary DictionaryTrie.new).findWordsInPassword (lit "mypassword1") ≠ [] ↔
      embedsDictionaryWord (lit "mypassword1")) ∧
    ((initializeDictionary DictionaryTrie.new).findWordsInPassword (lit "mypassword1") ≠ [] →
      hasLettersLoop (lit "mypassword1") = true)) ∧
    embedsDictionaryWord (lit "mypassword1") :=
  ⟨by decide, dictionary_penalty_iff (lit "mypassword1") (by decide), by decide⟩

/-! ## The score of the pipeline -/

theorem lengthCheck_score (password : Bytes) (r : StrengthResult) :
    (lengthCheck password r).score = r.score +
      (if 16 ≤ password.length then 4 else if 12 ≤ password.length then 3
        else if 8 ≤ password.length then 2 else 0) := by
  unfold lengthCheck
  split_ifs <;> simp

theorem varietyCheck_score (v : Variety) (r : StrengthResult) :
    (varietyCheck v r).score = r.score + (if v.hasUpper && v.hasLower then 1 else 0)
      + (if v.hasDigit then 1 else 0) + (if v.hasSpecial then 2 else 0) := by
  unfold varietyCheck
  simp only []
  split_ifs <;> simp

theorem commonCheck_score (b : Bool) (r : StrengthResult) :
    (commonCheck b r).score = if b then 0 else r.score := by
  unfold commonCheck
  split_ifs <;> rfl

theorem longBonus_score (password : Bytes) (r : StrengthResult) :
    (longBonus password r).score = r.score + (if 20 < password.length then 2 else 0) := by
  unfold longBonus
  split_ifs <;> simp

theorem resultBeforeDictionary_score (p : Bytes) :
    (resultBeforeDictionary p).score = if p ∈ weakPasswords then 0 else varietyPoints p := by
  unfold resultBeforeDictionary varietyPoints varietyOf
  rw [commonCheck_score, varietyCheck_score, lengthCheck_score]
  by_cases hc : p ∈ weakPasswords
  · simp [hc]
  · simp [hc]

theorem varietyPoints_bounds (p : Bytes) :
    0 ≤ varietyPoints p ∧ varietyPoints p ≤ 8 ∧
    (varietyPoints p = 8 → 16 ≤ p.length ∧ (varietyOf p).hasUpper = true ∧
      (varietyOf p).hasLower = true ∧ (varietyOf p).hasDigit = true ∧
      (varietyOf p).hasSpecial = true) := by
  unfold varietyPoints
  cases (varietyOf p).hasUpper <;> cases (varietyOf p).hasLower <;>
    cases (varietyOf p).hasDigit <;> cases (varietyOf p).hasSpecial <;>
    simp <;> split_ifs <;> omega

theorem analyse_score (p : Bytes) (h : p ≠ []) :
    ∃ res, analyse p = some res ∧
      res.score =
        (if embedsDictionaryWord p then max 0 ((resultBeforeDictionary p).score - 2)
          else (resultBeforeDictionary p).score)
        + (if 20 < p.length then 2 else 0) ∧
      ((res.strength = "Very Strong" ↔ 9 ≤ res.score) ∧
        (res.strength = "Strong" ↔ 7 ≤ res.score ∧ res.score ≤ 8) ∧
        (res.strength = "Moderate" ↔ 5 ≤ res.score ∧ res.score ≤ 6) ∧
        (res.strength = "Weak" ↔ 3 ≤ res.score ∧ res.score ≤ 4) ∧
        (res.strength = "Very Weak" ↔ res.score ≤ 2)) := by
  refine ⟨_, analyse_eq p h, ?_, ?_⟩
  · rw [determineStrength_score, longBonus_score, dictionaryCheck_eq]
    congr 1
    split_ifs <;> rfl
  · simp only [determineStrength_score]
    exact determineStrength_label _

theorem varietyLoop_flags (p : Bytes) :
    ∀ v : Variety,
      (varietyLoop v p).hasUpper = (v.hasUpper || p.any isupper) ∧
      (varietyLoop v p).hasLower = (v.hasLower || p.any fun c => !isupper c && islower c) ∧
      (varietyLoop v p).hasDigit
        = (v.hasDigit || p.any fun c => !isupper c && !islower c && isdigit c) ∧
      (varietyLoop v p).hasSpecial
        = (v.hasSpecial || p.any fun c => !isupper c && !islower c && !isdigit c) := by
  induction p with
  | nil => intro v; simp [varietyLoop]
  | cons c rest ih =>
    intro v
    unfold varietyLoop
    cases hu : isupper c with
    | true =>
      simp only [if_true]
      obtain ⟨h1, h2, h3, h4⟩ := ih { v with hasUpper := true }
      rw [h1, h2, h3, h4]
      simp [hu]
    | false =>
      cases hl : islower c with
      | true =>
        simp only [Bool.false_eq_true, if_false, if_true]
        obtain ⟨h1, h2, h3, h4⟩ := ih { v with hasLower := true }
        rw [h1, h2, h3, h4]
        simp [hu, hl]
      | false =>
        cases hd : isdigit c with
        | true =>
          simp only [Bool.false_eq_true, if_false, if_true]
          obtain ⟨h1, h2, h3, h4⟩ := ih { v with hasDigit := true }
          rw [h1, h2, h3, h4]
          simp [hu, hl, hd]
        | false =>
          simp only [Bool.false_eq_true, if_false]
          obtain ⟨h1, h2, h3, h4⟩ := ih { v with hasSpecial := true }
          rw [h1, h2, h3, h4]
          simp [hu, hl, hd]

theorem varietyOf_flags (p : Bytes) :
    ((varietyOf p).hasUpper = true ↔ ∃ c ∈ p, isupper c = true) ∧
    ((varietyOf p).hasLower = true ↔ ∃ c ∈ p, isupper c = false ∧ islower c = true) ∧
    ((varietyOf p).hasDigit = true ↔
      ∃ c ∈ p, isupper c = false ∧ islower c = false ∧ isdigit c = true) ∧
    ((varietyOf p).hasSpecial = true ↔
      ∃ c ∈ p, isupper c = false ∧ islower c = false ∧ isdigit c = false) := by
  obtain ⟨h1, h2, h3, h4⟩ := varietyLoop_flags p
    { hasUpper := false, hasLower := false, hasDigit := false, hasSpecial := false }
  unfold varietyOf
  rw [h1, h2, h3, h4]
  simp [and_assoc]

/-- C18: every password is analysed to a score of at most 10, and a score of 10
needs more than 20 characters, an uppercase letter, a lowercase letter, a digit, a
character that is none of these, and no dictionary word; the 21 characters
`Xyzzy1!xyzzyxyzzyxyzz` reach 10. -/
theorem score_at_most_ten (p : Bytes) :
    (∃ res, analyse p = some res ∧ res.score ≤ 10 ∧
      (res.score = 10 →
        20 < p.length ∧ (∃ c ∈ p, isupper c = true) ∧ (∃ c ∈ p, islower c = true) ∧
        (∃ c ∈ p, isdigit c = true) ∧
        (∃ c ∈ p, isupper c = false ∧ islower c = false ∧ isdigit c = false) ∧
        ¬ embedsDictionaryWord p)) ∧
    (analyse (lit "Xyzzy1!xyzzyxyzzyxyzz")).map (fun r => r.score) = some 10 := by
  refine ⟨?_, by decide⟩
  by_cases h : p = []
  · subst h
    exact ⟨_, (by decide : analyse [] =
      some { score := 0, strength := "Very Weak", feedback := ["✗ Password cannot be empty"] }),
      by decide, fun h10 => absurd h10 (by decide)⟩
  · obtain ⟨res, hres, hs, _⟩ := analyse_score p h
    obtain ⟨b0, b8, bflags⟩ := varietyPoints_bounds p
    obtain ⟨fu, fl, fd, fs⟩ := varietyOf_flags p
    rw [resultBeforeDictionary_score] at hs
    refine ⟨res, hres, ?_, ?_⟩
    · rw [hs]
      split_ifs <;> omega
    · intro h10
      rw [hs] at h10
      have key : 20 < p.length ∧ varietyPoints p = 8 ∧ ¬ embedsDictionaryWord p := by
        split_ifs at h10 <;> first | omega | exact ⟨by assumption, by omega, by assumption⟩
      obtain ⟨hlen, h8, hne⟩ := key
      obtain ⟨_, hU, hL, hD, hS⟩ := bflags h8
      obtain ⟨c2, m2, _, l2⟩ := fl.1 hL
      obtain ⟨c3, m3, _, _, d3⟩ := fd.1 hD
      exact ⟨hlen, fu.1 hU, ⟨c2, m2, l2⟩, ⟨c3, m3, d3⟩, fs.1 hS, hne⟩

/-- C19: a password rated "Very Strong" has more than 20 characters; a password of
at most 20 characters has a score of at most 8. The 22 characters
`Xyzzyxyzzyxyzzyxyzzyx!` are rated "Very Strong". -/
theorem very_strong_needs_length (p : Bytes) :
    (∃ res, analyse p = some res ∧
      (res.strength = "Very Strong" → 20 < p.length) ∧
      (p.length ≤ 20 → res.score ≤ 8 ∧ res.strength ≠ "Very Strong")) ∧
    (analyse (lit "Xyzzyxyzzyxyzzyxyzzyx!")).map (fun r => r.strength)
      = some "Very Strong" := by
  refine ⟨?_, by decide⟩
  by_cases h : p = []
  · subst h
    exact ⟨_, (by decide : analyse [] =
      some { score := 0, strength := "Very Weak", feedback := ["✗ Password cannot be empty"] }),
      fun hv => absurd hv (by decide), fun _ => ⟨by decide, by decide⟩⟩
  · obtain ⟨res, hres, hs, hlabel, _⟩ := analyse_score p h
    obtain ⟨b0, b8, _⟩ := varietyPoints_bounds p
    rw [resultBeforeDictionary_score] at hs
    have hshort : p.length ≤ 20 → res.score ≤ 8 := by
      intro hlen
      rw [hs]
      split_ifs <;> omega
    refine ⟨res, hres, ?_, ?_⟩
    · intro hv
      by_contra hlen
      have := hshort (by omega)
      have := hlabel.1 hv
      omega
    · intro hlen
      refine ⟨hshort hlen, ?_⟩
      intro hv
      have := hshort hlen
      have := hlabel.1 hv
      omega

/-! ## Generator lemmas -/

theorem perm_cons_set (a : Byte) :
    ∀ (t : Bytes) (j : Nat) (b : Byte), t[j]? = some b → (b :: t.set j a).Perm (a :: t) := by
  intro t
  induction t with
  | nil => intro j b h; simp at h
  | cons x t ih =>
    intro j b h
    cases j with
    | zero =>
      simp only [List.getElem?_cons_zero, Option.some.injEq] at h
      subst h
      exact List.Perm.swap _ _ _
    | succ j =>
      simp only [List.getElem?_cons_succ] at h
      rw [List.set_cons_succ]
      exact (List.Perm.swap x b _).trans
        (((ih j b h).cons x).trans (List.Perm.swap a x t))

theorem swapAt_perm :
    ∀ (vec : Bytes) (i j : Nat) (vec1 : Bytes), swapAt vec i j = some vec1 → vec1.Perm vec := by
  intro vec
  induction vec with
  | nil => intro i j vec1 h; simp [swapAt] at h
  | cons x t ih =>
    intro i j vec1 h
    cases i with
    | zero =>
      cases j with
      | zero =>
        simp [swapAt] at h
        subst h
        exact List.Perm.refl _
      | succ j =>
        cases hb : t[j]? with
        | none => simp [swapAt, hb] at h
        | some b =>
          simp [swapAt, hb] at h
          subst h
          exact perm_cons_set x t j b hb
    | succ i =>
      cases ha : t[i]? with
      | none => simp [swapAt, ha] at h
      | some a =>
        cases j with
        | zero =>
          simp [swapAt, ha] at h
          subst h
          exact perm_cons_set x t i a ha
        | succ j =>
          cases hb : t[j]? with
          | none => simp [swapAt, ha, hb] at h
          | some b =>
            simp [swapAt, ha, hb] at h
            subst h
            exact (ih i j _ (by simp [swapAt, ha, hb])).cons x

theorem swapAt_some (vec : Bytes) (i j : Nat) (hi : i < vec.length) (hj : j < vec.length) :
    ∃ vec1, swapAt vec i j = some vec1 := by
  simp [swapAt, List.getElem?_eq_getElem hi, List.getElem?_eq_getElem hj]

theorem shuffleLoop_perm (i : Nat) :
    ∀ (vec : Bytes) (r : RandState) (out : Bytes × RandState),
      shuffleLoop i vec r = some out → out.1.Perm vec := by
  induction i with
  | zero =>
    intro vec r out h
    simp only [shuffleLoop, Option.some.injEq] at h
    subst h
    exact List.Perm.refl _
  | succ i ih =>
    intro vec r out h
    simp only [shuffleLoop, rand] at h
    split_ifs at h
    cases hs : swapAt vec (i + 1) (r.seq r.pos % (i + 1 + 1)) with
    | none => simp [hs] at h
    | some vec1 =>
      simp only [hs] at h
      exact (ih vec1 _ out h).trans (swapAt_perm _ _ _ _ hs)

theorem shuffleLoop_some (i : Nat) :
    ∀ (vec : Bytes) (r : RandState), i < vec.length → vec.length ≤ 2147483647 →
      ∃ out, shuffleLoop i vec r = some out := by
  induction i with
  | zero => intro vec r _ _; exact ⟨_, rfl⟩
  | succ i ih =>
    intro vec r hi hlen
    have hfit : ((i + 1 : Nat) : Int) + 1 ≤ INT_MAX := by
      unfold INT_MAX
      omega
    have hj : r.seq r.pos % (i + 1 + 1) < vec.length :=
      lt_of_lt_of_le (Nat.mod_lt _ (by omega)) (by omega)
    obtain ⟨vec1, hs⟩ := swapAt_some vec (i + 1) _ hi hj
    have hl : vec1.length = vec.length := (swapAt_perm _ _ _ _ hs).length_eq
    obtain ⟨out, ho⟩ := ih vec1 { r with pos := r.pos + 1 } (by omega) (by omega)
    refine ⟨out, ?_⟩
    simp only [shuffleLoop, rand, hfit, if_true, hs]
    exact ho

theorem shuffleVector_perm (vec : Bytes) (r : RandState) (out : Bytes × RandState)
    (h : shuffleVector vec r = some out) : out.1.Perm vec :=
  shuffleLoop_perm _ vec r out h

theorem shuffleVector_some (vec : Bytes) (r : RandState) (h0 : 0 < vec.length)
    (hlen : vec.length ≤ 2147483647) : ∃ out, shuffleVector vec r = some out := by
  have hstart : (toInt ((vec.length + 18446744073709551615) % 18446744073709551616)).toNat
      = vec.length - 1 := by
    have h1 : (vec.length + 18446744073709551615) % 18446744073709551616 = vec.length - 1 := by
      omega
    rw [h1]
    unfold toInt INT_MAX
    simp only []
    have h2 : ((vec.length - 1 : Nat) : Int) % 4294967296 = ((vec.length - 1 : Nat) : Int) := by
      omega
    rw [h2, if_pos (by omega)]
    exact Int.toNat_natCast _
  unfold shuffleVector
  rw [hstart]
  exact shuffleLoop_some _ vec r (by omega) hlen

theorem pick_mem (pool : Bytes) (r : RandState) (out : Byte × RandState)
    (h : pick pool r = some out) : out.1 ∈ pool := by
  unfold pick at h
  split_ifs at h
  simp only [rand] at h
  cases hc : pool[r.seq r.pos % pool.length]? with
  | none => simp [hc] at h
  | some c =>
    simp only [hc, Option.some.injEq] at h
    subst h
    exact List.mem_iff_getElem?.2 ⟨_, hc⟩

theorem pick_some (pool : Bytes) (r : RandState) (h : pool ≠ []) :
    ∃ out, pick pool r = some out := by
  have hl : 0 < pool.length := List.length_pos.2 h
  have hi : r.seq r.pos % pool.length < pool.length := Nat.mod_lt _ hl
  unfold pick
  rw [if_neg (by omega)]
  simp [rand, List.getElem?_eq_getElem hi]

theorem fillLoop_spec (allChars : Bytes) (length : Nat) (rounds : Nat) :
    ∀ (password : Bytes) (r : RandState) (out : Bytes × RandState),
      fillLoop allChars length rounds password r = some out →
        ∃ extra, out.1 = password ++ extra ∧ (∀ x ∈ extra, x ∈ allChars) ∧
          out.1.length = max password.length length := by
  induction rounds with
  | zero =>
    intro password r out h
    simp only [fillLoop] at h
    split_ifs at h with hlt
    simp only [Option.some.injEq] at h
    subst h
    exact ⟨[], by simp, by simp, by simp; omega⟩
  | succ rounds ih =>
    intro password r out h
    simp only [fillLoop] at h
    split_ifs at h with hlt
    · cases hp : pick allChars r with
      | none => simp [hp] at h
      | some cr =>
        obtain ⟨c, r1⟩ := cr
        simp only [hp] at h
        obtain ⟨extra, h1, h2, h3⟩ := ih _ _ _ h
        refine ⟨c :: extra, by simpa using h1, ?_, ?_⟩
        · intro x hx
          rcases List.mem_cons.1 hx with hx | hx
          · subst hx
            exact pick_mem allChars r _ hp
          · exact h2 x hx
        · rw [h3]
          simp only [List.length_append, List.length_singleton]
          omega
    · simp only [Option.some.injEq] at h
      subst h
      exact ⟨[], by simp, by simp, by simp; omega⟩

theorem fillLoop_some (allChars : Bytes) (length : Nat) (hall : allChars ≠ []) (rounds : Nat) :
    ∀ (password : Bytes) (r : RandState), length - password.length ≤ rounds →
      ∃ out, fillLoop allChars length rounds password r = some out := by
  induction rounds with
  | zero =>
    intro password r h
    refine ⟨(password, r), ?_⟩
    simp only [fillLoop]
    rw [if_neg (by omega)]
  | succ rounds ih =>
    intro password r h
    by_cases hlt : password.length < length
    · obtain ⟨⟨c, r1⟩, hp⟩ := pick_some allChars r hall
      obtain ⟨out, ho⟩ := ih (password ++ [c]) r1 (by
        simp only [List.length_append, List.length_singleton]
        omega)
      exact ⟨out, by simp only [fillLoop, if_pos hlt, hp, ho]⟩
    · exact ⟨(password, r), by simp only [fillLoop, if_neg hlt]⟩

theorem generate_spec (length : Int) (r : RandState) (out : Bytes × RandState)
    (h : generateStrongPassword length r = some out) :
    ∃ (c1 c2 c3 c4 : Byte) (allChars extra : Bytes),
      c1 ∈ uppercase ∧ c2 ∈ lowercase ∧ c3 ∈ digits ∧ c4 ∈ special ∧
      allChars.Perm (uppercase ++ lowercase ++ digits ++ special) ∧
      (∀ x ∈ extra, x ∈ allChars) ∧
      out.1.Perm ([c1, c2, c3, c4] ++ extra) ∧
      ([c1, c2, c3, c4] ++ extra).length = max 4 (toSizeT length) := by
  simp only [generateStrongPassword, Option.bind_eq_bind, Option.bind_eq_some] at h
  obtain ⟨⟨c1, r1⟩, h1, ⟨c2, r2⟩, h2, ⟨c3, r3⟩, h3, ⟨c4, r4⟩, h4, ⟨all, r5⟩, h5,
    ⟨pw, r6⟩, h6, h7⟩ := h
  simp only [List.nil_append, List.singleton_append, List.cons_append] at h6
  obtain ⟨extra, e1, e2, e3⟩ := fillLoop_spec _ _ _ _ _ _ h6
  simp only at e1 e2 e3
  refine ⟨c1, c2, c3, c4, all, extra, pick_mem _ _ _ h1, pick_mem _ _ _ h2, pick_mem _ _ _ h3,
    pick_mem _ _ _ h4, shuffleVector_perm _ _ _ h5, e2, ?_, ?_⟩
  · have hp := shuffleVector_perm _ _ _ h7
    simp only at hp
    rw [e1] at hp
    exact hp
  · rw [← e1, e3]
    rfl

theorem pools_ne_nil :
    uppercase ≠ [] ∧ lowercase ≠ [] ∧ digits ≠ [] ∧ special ≠ [] ∧
      (uppercase ++ lowercase ++ digits ++ special).length = 76 := by
  decide

theorem generate_returns_of_shuffle (length : Int) (r : RandState)
    (hfinal : ∀ (pw : Bytes) (r6 : RandState), pw.length = max 4 (toSizeT length) →
      ∃ out, shuffleVector pw r6 = some out) :
    ∃ out, generateStrongPassword length r = some out := by
  obtain ⟨hu, hl, hd, hs, hall⟩ := pools_ne_nil
  obtain ⟨⟨c1, r1⟩, h1⟩ := pick_some uppercase r hu
  obtain ⟨⟨c2, r2⟩, h2⟩ := pick_some lowercase r1 hl
  obtain ⟨⟨c3, r3⟩, h3⟩ := pick_some digits r2 hd
  obtain ⟨⟨c4, r4⟩, h4⟩ := pick_some special r3 hs
  obtain ⟨⟨all, r5⟩, h5⟩ := shuffleVector_some (uppercase ++ lowercase ++ digits ++ special) r4
    (by rw [hall]; decide) (by rw [hall]; decide)
  have hall2 : all.length = 76 := by
    rw [(shuffleVector_perm _ _ _ h5).length_eq, hall]
  have hne : all ≠ [] := by
    intro h
    rw [h] at hall2
    exact absurd hall2 (by decide)
  obtain ⟨⟨pw, r6⟩, h6⟩ := fillLoop_some all (toSizeT length) hne
    (toSizeT length - ([c1, c2, c3, c4] : Bytes).length) [c1, c2, c3, c4] r5 (le_refl _)
  obtain ⟨extra, e1, _, e3⟩ := fillLoop_spec _ _ _ _ _ _ h6
  simp only at e1 e3
  have hpw : pw.length = max 4 (toSizeT length) := e3
  obtain ⟨out, h7⟩ := hfinal pw r6 hpw
  refine ⟨out, ?_⟩
  simp only [generateStrongPassword, Option.bind_eq_bind, Option.bind_eq_some]
  exact ⟨(c1, r1), h1, (c2, r2), h2, (c3, r3), h3, (c4, r4), h4, (all, r5), h5, (pw, r6), h6, h7⟩

theorem generate_returns (length : Int) (r : RandState) (hlen : toSizeT length ≤ 2147483647) :
    ∃ out, generateStrongPassword length r = some out := by
  apply generate_returns_of_shuffle
  intro pw r6 hpw
  exact shuffleVector_some pw r6 (by rw [hpw]; omega) (by rw [hpw]; omega)

theorem generate_length_eq (length : Int) (r : RandState) (out : Bytes × RandState)
    (h : generateStrongPassword length r = some out) :
    out.1.length = max 4 (toSizeT length) := by
  obtain ⟨c1, c2, c3, c4, all, extra, _, _, _, _, _, _, hp, hl⟩ := generate_spec length r out h
  rw [hp.length_eq, hl]

theorem toSizeT_of_nonneg (n : Int) (h0 : 0 ≤ n) (h1 : n ≤ INT_MAX) : toSizeT n = n.toNat := by
  unfold INT_MAX at h1
  unfold toSizeT
  congr 1
  omega

theorem generate_floor_of_four (n : Int) (h0 : 0 ≤ n) (h4 : n < 4) (r : RandState) :
    ∃ out, generateStrongPassword n r = some out ∧ out.1.length = 4 := by
  have hs : toSizeT n = n.toNat := toSizeT_of_nonneg n h0 (by unfold INT_MAX; omega)
  obtain ⟨out, ho⟩ := generate_returns n r (by rw [hs]; omega)
  refine ⟨out, ho, ?_⟩
  rw [generate_length_eq n r out ho, hs]
  omega

/-! ## Claims on the generator -/

/-- C8: for every requested length `n ≥ 4` of type `int` and every stream of
`rand()` values, `generateStrongPassword(n)` returns a string of exactly `n`
characters. -/
theorem generate_length (n : Int) (h4 : 4 ≤ n) (hmax : n ≤ INT_MAX) (r : RandState) :
    ∃ out, generateStrongPassword n r = some out ∧ (out.1.length : Int) = n := by
  have hs : toSizeT n = n.toNat := toSizeT_of_nonneg n (by omega) hmax
  unfold INT_MAX at hmax
  obtain ⟨out, ho⟩ := generate_returns n r (by rw [hs]; omega)
  refine ⟨out, ho, ?_⟩
  rw [generate_length_eq n r out ho, hs]
  omega

/-- Witness of C8 at the default length 16. -/
theorem generate_length_witness :
    (4 : Int) ≤ 16 ∧ (16 : Int) ≤ INT_MAX ∧
    ∃ out, generateStrongPassword 16 sampleRand = some out ∧ (out.1.length : Int) = 16 :=
  ⟨by decide, by decide, generate_length 16 (by decide) (by decide) sampleRand⟩

/-- C9: whenever `generateStrongPassword` returns the string `pw`, for any requested
length and any stream of `rand()` values, `pw` holds a character of each of the
four pools and every character of `pw` is in one of the pools. -/
theorem generate_categories (length : Int) (r : RandState) (pw : Bytes)
    (h : (generateStrongPassword length r).map Prod.fst = some pw) :
    (∃ c ∈ pw, c ∈ uppercase) ∧ (∃ c ∈ pw, c ∈ lowercase) ∧ (∃ c ∈ pw, c ∈ digits) ∧
    (∃ c ∈ pw, c ∈ special) ∧
    ∀ c ∈ pw, c ∈ uppercase ∨ c ∈ lowercase ∨ c ∈ digits ∨ c ∈ special := by
  obtain ⟨out, ho, hpw⟩ := Option.map_eq_some'.1 h
  subst hpw
  obtain ⟨c1, c2, c3, c4, all, extra, m1, m2, m3, m4, hall, hex, hp, _⟩ :=
    generate_spec length r out ho
  have hmem : ∀ x, x ∈ out.1 ↔ x ∈ [c1, c2, c3, c4] ++ extra := fun x => hp.mem_iff
  refine ⟨⟨c1, (hmem c1).2 (by simp), m1⟩, ⟨c2, (hmem c2).2 (by simp), m2⟩,
    ⟨c3, (hmem c3).2 (by simp), m3⟩, ⟨c4, (hmem c4).2 (by simp), m4⟩, ?_⟩
  intro c hc
  rcases List.mem_append.1 ((hmem c).1 hc) with hh | hh
  · simp only [List.mem_cons, List.not_mem_nil, or_false] at hh
    rcases hh with hh | hh | hh | hh
    · exact Or.inl (hh ▸ m1)
    · exact Or.inr (Or.inl (hh ▸ m2))
    · exact Or.inr (Or.inr (Or.inl (hh ▸ m3)))
    · exact Or.inr (Or.inr (Or.inr (hh ▸ m4)))
  · have hin := hall.mem_iff.1 (hex c hh)
    simp only [List.mem_append] at hin
    tauto

/-- Witness of C9: with the sample stream the length 16 gives `yN5Ocl=j7bTFEnP1`. -/
theorem generate_categories_witness :
    (generateStrongPassword 16 sampleRand).map Prod.fst = some (lit "yN5Ocl=j7bTFEnP1") ∧
    (∃ c ∈ lit "yN5Ocl=j7bTFEnP1", c ∈ uppercase) ∧
    (∃ c ∈ lit "yN5Ocl=j7bTFEnP1", c ∈ lowercase) ∧
    (∃ c ∈ lit "yN5Ocl=j7bTFEnP1", c ∈ digits) ∧
    (∃ c ∈ lit "yN5Ocl=j7bTFEnP1", c ∈ special) ∧
    ∀ c ∈ lit "yN5Ocl=j7bTFEnP1", c ∈ uppercase ∨ c ∈ lowercase ∨ c ∈ digits ∨ c ∈ special :=
  ⟨by decide, generate_categories 16 sampleRand (lit "yN5Ocl=j7bTFEnP1") (by decide)⟩

/-- C10 at the requested length -1: the comparison `password.length() < length`
converts -1 to the `size_t` value 18446744073709551615, so the condition of the
fill loop holds for the 4-character password and the loop appends characters; the
string the model ends with has 18446744073709551615 characters, not 4. (A real run
cannot hold such a string and ends in `std::length_error` or `std::bad_alloc`.) -/
theorem generate_negative_length (r : RandState) :
    toSizeT (-1) = 18446744073709551615 ∧
    ∃ out, generateStrongPassword (-1) r = some out ∧
      out.1.length = 18446744073709551615 := by
  have hs : toSizeT (-1) = 18446744073709551615 := by decide
  refine ⟨hs, ?_⟩
  obtain ⟨out, ho⟩ := generate_returns_of_shuffle (-1) r (by
    intro pw r6 hpw
    rw [hs] at hpw
    have hstart : (toInt ((pw.length + 18446744073709551615) % 18446744073709551616)).toNat
        = 0 := by
      rw [hpw]
      decide
    refine ⟨(pw, r6), ?_⟩
    unfold shuffleVector
    rw [hstart]
    rfl)
  refine ⟨out, ho, ?_⟩
  rw [generate_length_eq (-1) r out ho, hs]
  rfl

theorem pool_classes :
    (∀ c ∈ uppercase, isupper c = true) ∧
    (∀ c ∈ lowercase, isupper c = false ∧ islower c = true) ∧
    (∀ c ∈ digits, isupper c = false ∧ islower c = false ∧ isdigit c = true) ∧
    (∀ c ∈ special, isupper c = false ∧ islower c = false ∧ isdigit c = false) ∧
    (∀ w ∈ weakPasswords, w.length ≠ 16) := by
  decide

/-- C20: for every stream of `rand()` values, `generateStrongPassword(16)` returns a
password that is not in the common-password list and that the analyser scores 8
("Strong") when no dictionary word occurs in it and 6 ("Moderate") when one does;
it is never "Very Strong". With the sample stream the password is
`yN5Ocl=j7bTFEnP1`, scored 8. -/
theorem generated_password_score (r : RandState) :
    (∃ out, generateStrongPassword 16 r = some out ∧ out.1 ∉ weakPasswords ∧
      ∃ res, analyse out.1 = some res ∧
        (¬ embedsDictionaryWord out.1 → res.score = 8 ∧ res.strength = "Strong") ∧
        (embedsDictionaryWord out.1 → res.score = 6 ∧ res.strength = "Moderate") ∧
        res.strength ≠ "Very Strong") ∧
    (generateStrongPassword 16 sampleRand).map Prod.fst = some (lit "yN5Ocl=j7bTFEnP1") ∧
    (analyse (lit "yN5Ocl=j7bTFEnP1")).map (fun res => (res.score, res.strength))
      = some (8, "Strong") := by
  refine ⟨?_, by decide, by decide⟩
  obtain ⟨out, ho⟩ := generate_returns 16 r (by decide)
  obtain ⟨c1, c2, c3, c4, all, extra, m1, m2, m3, m4, _, _, hp, _⟩ := generate_spec 16 r out ho
  have hlen : out.1.length = 16 := by
    rw [generate_length_eq 16 r out ho]
    decide
  have hne : out.1 ≠ [] := by
    intro h
    rw [h] at hlen
    exact absurd hlen (by decide)
  obtain ⟨pu, pl, pd, ps, pw16⟩ := pool_classes
  have hmem : ∀ x, x ∈ [c1, c2, c3, c4] ++ extra → x ∈ out.1 := fun x hx => hp.mem_iff.2 hx
  obtain ⟨fu, fl, fd, fs⟩ := varietyOf_flags out.1
  have hU : (varietyOf out.1).hasUpper = true := fu.2 ⟨c1, hmem c1 (by simp), pu c1 m1⟩
  have hL : (varietyOf out.1).hasLower = true := fl.2 ⟨c2, hmem c2 (by simp), pl c2 m2⟩
  have hD : (varietyOf out.1).hasDigit = true := fd.2 ⟨c3, hmem c3 (by simp), pd c3 m3⟩
  have hS : (varietyOf out.1).hasSpecial = true := fs.2 ⟨c4, hmem c4 (by simp), ps c4 m4⟩
  have hpts : varietyPoints out.1 = 8 := by
    unfold varietyPoints
    rw [hU, hL, hD, hS, hlen]
    decide
  have hnc : out.1 ∉ weakPasswords := fun hin => pw16 out.1 hin hlen
  obtain ⟨res, hres, hs, hlabel⟩ := analyse_score out.1 hne
  rw [resultBeforeDictionary_score, if_neg hnc, hpts, hlen,
    if_neg (by decide : ¬ (20 < 16))] at hs
  refine ⟨out, ho, hnc, res, hres, ?_, ?_, ?_⟩
  · intro he
    rw [if_neg he] at hs
    have h8 : res.score = 8 := by rw [hs]; decide
    exact ⟨h8, hlabel.2.1.2 (by omega)⟩
  · intro he
    rw [if_pos he] at hs
    have h6 : res.score = 6 := by rw [hs]; decide
    exact ⟨h6, hlabel.2.2.1.2 (by omega)⟩
  · intro hv
    have h9 := hlabel.1.1 hv
    have hle : res.score ≤ 8 := by
      rw [hs]
      split_ifs <;> decide
    omega

/-! ## The shuffle as a map from index sequences -/

theorem swapAt_getElem? (vec vec1 : Bytes) (a b : Nat) (h : swapAt vec a b = some vec1) :
    ∀ k, vec1[k]? = if k = b then vec[a]? else if k = a then vec[b]? else vec[k]? := by
  intro k
  unfold swapAt at h
  cases ha : vec[a]? with
  | none => simp [ha] at h
  | some x =>
    cases hb : vec[b]? with
    | none => simp [ha, hb] at h
    | some y =>
      simp only [ha, hb, Option.some.injEq] at h
      subst h
      have hal : a < vec.length := (List.getElem?_eq_some_iff.1 ha).1
      have hbl : b < vec.length := (List.getElem?_eq_some_iff.1 hb).1
      rw [List.getElem?_set, List.getElem?_set]
      by_cases hkb : k = b
      · subst hkb
        simp [hbl]
      · have hbk : ¬ b = k := fun h => hkb h.symm
        rw [if_neg hbk, if_neg hkb]
        by_cases hka : k = a
        · subst hka
          simp [hal, hb]
        · have hak : ¬ a = k := fun h => hka h.symm
          rw [if_neg hak, if_neg hka]

theorem shuffleBy_perm (i : Nat) :
    ∀ (js : List Nat) (vec out : Bytes), shuffleBy i js vec = some out → out.Perm vec := by
  induction i with
  | zero =>
    intro js vec out h
    simp only [shuffleBy, Option.some.injEq] at h
    exact h ▸ List.Perm.refl _
  | succ i ih =>
    intro js vec out h
    cases js with
    | nil => simp [shuffleBy] at h
    | cons j js =>
      simp only [shuffleBy] at h
      cases hs : swapAt vec (i + 1) j with
      | none => simp [hs] at h
      | some vec1 =>
        simp only [hs] at h
        exact (ih js vec1 out h).trans (swapAt_perm _ _ _ _ hs)

theorem shuffleBy_some (i : Nat) :
    ∀ (js : List Nat) (vec : Bytes), validIndices i js = true → (i = 0 ∨ i < vec.length) →
      ∃ out, shuffleBy i js vec = some out := by
  induction i with
  | zero => intro js vec _ _; exact ⟨vec, rfl⟩
  | succ i ih =>
    intro js vec hv hi
    cases js with
    | nil => simp [validIndices] at hv
    | cons j js =>
      simp only [validIndices, Bool.and_eq_true, decide_eq_true_eq] at hv
      have hil : i + 1 < vec.length := by omega
      obtain ⟨vec1, hs⟩ := swapAt_some vec (i + 1) j hil (by omega)
      have hl : vec1.length = vec.length := (swapAt_perm _ _ _ _ hs).length_eq
      obtain ⟨out, ho⟩ := ih js vec1 hv.2 (Or.inr (by omega))
      exact ⟨out, by simp only [shuffleBy, hs, ho]⟩

theorem shuffleBy_above (i : Nat) :
    ∀ (js : List Nat) (vec out : Bytes), validIndices i js = true →
      shuffleBy i js vec = some out → ∀ k, i < k → out[k]? = vec[k]? := by
  induction i with
  | zero =>
    intro js vec out _ h k _
    simp only [shuffleBy, Option.some.injEq] at h
    rw [h]
  | succ i ih =>
    intro js vec out hv h k hk
    cases js with
    | nil => simp [validIndices] at hv
    | cons j js =>
      simp only [validIndices, Bool.and_eq_true, decide_eq_true_eq] at hv
      simp only [shuffleBy] at h
      cases hs : swapAt vec (i + 1) j with
      | none => simp [hs] at h
      | some vec1 =>
        simp only [hs] at h
        rw [ih js vec1 out hv.2 h k (by omega), swapAt_getElem? vec vec1 (i + 1) j hs k,
          if_neg (by omega), if_neg (by omega)]

theorem shuffleBy_at (i : Nat) (j : Nat) (js : List Nat) (vec out : Bytes)
    (hv : validIndices (i + 1) (j :: js) = true)
    (h : shuffleBy (i + 1) (j :: js) vec = some out) : out[i + 1]? = vec[j]? := by
  simp only [validIndices, Bool.and_eq_true, decide_eq_true_eq] at hv
  simp only [shuffleBy] at h
  cases hs : swapAt vec (i + 1) j with
  | none => simp [hs] at h
  | some vec1 =>
    simp only [hs] at h
    rw [shuffleBy_above i js vec1 out hv.2 h (i + 1) (by omega),
      swapAt_getElem? vec vec1 (i + 1) j hs (i + 1)]
    by_cases hj : i + 1 = j
    · rw [if_pos hj, hj]
    · rw [if_neg hj, if_pos rfl]

theorem eq_of_perm_of_tail_agree (vec t : Bytes) (hnd : vec.Nodup) (hp : t.Perm vec)
    (hag : ∀ k, 0 < k → t[k]? = vec[k]?) : vec = t := by
  cases vec with
  | nil => exact (List.Perm.eq_nil hp).symm
  | cons b v =>
    cases t with
    | nil => exact absurd hp.length_eq (by simp)
    | cons a t2 =>
      have htail : t2 = v := by
        apply List.ext_getElem?
        intro k
        have := hag (k + 1) (by omega)
        simpa using this
      subst htail
      have hab : a = b := by
        have ha : a ∈ b :: t2 := hp.subset (List.mem_cons_self _ _)
        rcases List.mem_cons.1 ha with h | h
        · exact h
        · have hnd2 : (a :: t2).Nodup := hp.nodup_iff.2 hnd
          exact absurd h (List.nodup_cons.1 hnd2).1
      rw [hab]

theorem shuffleBy_unique (i : Nat) :
    ∀ (vec t : Bytes), vec.Nodup → t.Perm vec → (i = 0 ∨ i < vec.length) →
      (∀ k, i < k → t[k]? = vec[k]?) →
      ∃! js, validIndices i js = true ∧ shuffleBy i js vec = some t := by
  induction i with
  | zero =>
    intro vec t hnd hp _ hag
    have hvt := eq_of_perm_of_tail_agree vec t hnd hp hag
    refine ⟨[], ⟨rfl, by simp only [shuffleBy, hvt]⟩, ?_⟩
    rintro js ⟨hv, _⟩
    cases js with
    | nil => rfl
    | cons _ _ => simp [validIndices] at hv
  | succ i ih =>
    intro vec t hnd hp hi hag
    have hil : i + 1 < vec.length := by omega
    have htl : i + 1 < t.length := by rw [hp.length_eq]; exact hil
    have htnd : t.Nodup := hp.nodup_iff.2 hnd
    -- the element that must land at position i + 1
    have hx : t[i + 1] ∈ vec := hp.subset (List.getElem_mem _)
    obtain ⟨j, hjl, hj⟩ := List.getElem_of_mem hx
    have hj? : vec[j]? = t[i + 1]? := by
      rw [List.getElem?_eq_getElem hjl, List.getElem?_eq_getElem htl, hj]
    have hji : j ≤ i + 1 := by
      by_contra hgt
      have h1 : t[j]? = vec[j]? := hag j (by omega)
      have h2 : t[i + 1]? = t[j]? := by rw [h1, hj?]
      have := List.getElem?_inj htl htnd h2
      omega
    obtain ⟨vec1, hs⟩ := swapAt_some vec (i + 1) j hil hjl
    have hperm1 : vec1.Perm vec := swapAt_perm _ _ _ _ hs
    have hag1 : ∀ k, i < k → t[k]? = vec1[k]? := by
      intro k hk
      rw [swapAt_getElem? vec vec1 (i + 1) j hs k]
      by_cases hkj : k = j
      · have hk1 : k = i + 1 := by omega
        have hj1 : j = i + 1 := by omega
        rw [if_pos hkj, hk1]
        rw [hj1] at hj?
        exact hj?.symm
      · rw [if_neg hkj]
        by_cases hk1 : k = i + 1
        · rw [if_pos hk1, hj?, hk1]
        · rw [if_neg hk1]
          exact hag k (by omega)
    obtain ⟨js, ⟨hjsv, hjss⟩, huniq⟩ := ih vec1 t (hperm1.nodup_iff.2 hnd) (hp.trans hperm1.symm)
      (Or.inr (by rw [hperm1.length_eq]; omega)) hag1
    refine ⟨j :: js, ⟨?_, ?_⟩, ?_⟩
    · simp [validIndices, hji, hjsv]
    · simp only [shuffleBy, hs, hjss]
    · rintro js2 ⟨hv2, hs2⟩
      cases js2 with
      | nil => simp [validIndices] at hv2
      | cons j2 js3 =>
        have hat := shuffleBy_at i j2 js3 vec t hv2 hs2
        have hjj : j = j2 := by
          apply List.getElem?_inj hjl hnd
          rw [hj?, hat]
        subst hjj
        simp only [validIndices, Bool.and_eq_true, decide_eq_true_eq] at hv2
        simp only [shuffleBy, hs] at hs2
        rw [huniq js3 ⟨hv2.2, hs2⟩]

theorem drawnIndices_valid (i : Nat) :
    ∀ r : RandState, validIndices i (drawnIndices i r) = true := by
  induction i with
  | zero => intro r; rfl
  | succ i ih =>
    intro r
    simp only [drawnIndices, validIndices, Bool.and_eq_true, decide_eq_true_eq]
    exact ⟨Nat.le_of_lt_succ (Nat.mod_lt _ (by omega)), ih _⟩

theorem drawnIndices_onto (i : Nat) :
    ∀ (js pre : List Nat), validIndices i js = true →
      drawnIndices i { seq := fun k => (pre ++ js).getD k 0, pos := pre.length } = js := by
  induction i with
  | zero =>
    intro js pre hv
    cases js with
    | nil => rfl
    | cons _ _ => simp [validIndices] at hv
  | succ i ih =>
    intro js pre hv
    cases js with
    | nil => simp [validIndices] at hv
    | cons j js =>
      simp only [validIndices, Bool.and_eq_true, decide_eq_true_eq] at hv
      have hstep := ih js (pre ++ [j]) hv.2
      simp only [List.append_assoc, List.singleton_append, List.length_append,
        List.length_singleton] at hstep
      simp only [drawnIndices, rand]
      rw [hstep]
      congr 1
      have hget : (pre ++ j :: js).getD pre.length 0 = j := by
        rw [List.getD_eq_getElem?_getD, List.getElem?_append_right (le_refl _)]
        simp
      rw [hget]
      exact Nat.mod_eq_of_lt (by omega)

theorem shuffleLoop_eq_shuffleBy (i : Nat) :
    ∀ (vec : Bytes) (r : RandState), (i = 0 ∨ (i : Int) + 1 ≤ INT_MAX) →
      shuffleLoop i vec r = (shuffleBy i (drawnIndices i r) vec).map
        fun out => (out, { r with pos := r.pos + i }) := by
  induction i with
  | zero => intro vec r _; rfl
  | succ i ih =>
    intro vec r hfit
    have hfit1 : ((i + 1 : Nat) : Int) + 1 ≤ INT_MAX := by
      rcases hfit with h | h
      · exact absurd h (by omega)
      · exact h
    have hfit2 : i = 0 ∨ (i : Int) + 1 ≤ INT_MAX := Or.inr (by push_cast at hfit1; omega)
    simp only [shuffleLoop, hfit1, if_true, drawnIndices, shuffleBy, rand]
    cases swapAt vec (i + 1) (r.seq r.pos % (i + 1 + 1)) with
    | none => rfl
    | some vec1 =>
      simp only []
      rw [ih vec1 _ hfit2]
      simp only [Nat.add_assoc, Nat.add_comm 1 i]

theorem shuffleVector_start (vec : Bytes) (hlen : vec.length ≤ 2147483647) :
    (toInt ((vec.length + 18446744073709551615) % 18446744073709551616)).toNat
      = vec.length - 1 := by
  by_cases h0 : vec.length = 0
  · rw [h0]
    decide
  · have h1 : (vec.length + 18446744073709551615) % 18446744073709551616 = vec.length - 1 := by
      omega
    rw [h1]
    unfold toInt INT_MAX
    simp only []
    have h2 : ((vec.length - 1 : Nat) : Int) % 4294967296 = ((vec.length - 1 : Nat) : Int) := by
      omega
    rw [h2, if_pos (by omega)]
    exact Int.toNat_natCast _

theorem nodup_length_le (vec : Bytes) (hnd : vec.Nodup) : vec.length ≤ 256 := by
  have := hnd.length_le_card
  simpa using this

/-- C17: for a vector of pairwise distinct elements, every sequence of swap
indices `j_i` with `0 ≤ j_i ≤ i` (one for each `i` from the last position down to
1) gives a permutation of the vector, and every permutation of the vector is given
by exactly one such sequence; the permutations are the `n!` members of
`vec.permutations`. `shuffleVector` is this map at the indices
`rand() % (i + 1)`, and every valid sequence is drawn by some stream of `rand()`
values. For any vector, any index sequence and any stream the output is a
permutation of the input. -/
theorem shuffle_bijection (vec : Bytes) (hnd : vec.Nodup) :
    (∀ js, validIndices (vec.length - 1) js = true →
      ∃ out, shuffleBy (vec.length - 1) js vec = some out ∧ out.Perm vec) ∧
    (∀ t : Bytes, t.Perm vec →
      ∃! js, validIndices (vec.length - 1) js = true ∧
        shuffleBy (vec.length - 1) js vec = some t) ∧
    (vec.permutations.Nodup ∧ vec.permutations.length = vec.length.factorial ∧
      ∀ t : Bytes, t ∈ vec.permutations ↔ t.Perm vec) ∧
    (∀ r : RandState, validIndices (vec.length - 1) (drawnIndices (vec.length - 1) r) = true ∧
      shuffleVector vec r = (shuffleBy (vec.length - 1) (drawnIndices (vec.length - 1) r) vec).map
        fun out => (out, { r with pos := r.pos + (vec.length - 1) })) ∧
    (∀ js, validIndices (vec.length - 1) js = true →
      ∃ r : RandState, drawnIndices (vec.length - 1) r = js) ∧
    (∀ (v : Bytes) (i : Nat) (js : List Nat) (out : Bytes),
      shuffleBy i js v = some out → out.Perm v) ∧
    (∀ (v : Bytes) (r : RandState) (out : Bytes × RandState),
      shuffleVector v r = some out → out.1.Perm v) := by
  have hlen := nodup_length_le vec hnd
  have hidx : vec.length - 1 = 0 ∨ vec.length - 1 < vec.length := by omega
  refine ⟨?_, ?_, ⟨List.nodup_permutations vec hnd, List.length_permutations vec,
    fun t => List.mem_permutations⟩, ?_, ?_, ?_, ?_⟩
  · intro js hv
    obtain ⟨out, ho⟩ := shuffleBy_some _ js vec hv hidx
    exact ⟨out, ho, shuffleBy_perm _ js vec out ho⟩
  · intro t hp
    apply shuffleBy_unique _ vec t hnd hp hidx
    intro k hk
    rw [List.getElem?_eq_none (by rw [hp.length_eq]; omega), List.getElem?_eq_none (by omega)]
  · intro r
    refine ⟨drawnIndices_valid _ r, ?_⟩
    unfold shuffleVector
    rw [shuffleVector_start vec (by omega)]
    apply shuffleLoop_eq_shuffleBy
    right
    unfold INT_MAX
    omega
  · intro js hv
    exact ⟨_, drawnIndices_onto _ js [] hv⟩
  · intro v i js out h
    exact shuffleBy_perm i js v out h
  · intro v r out h
    exact shuffleVector_perm v r out h

/-- Witness of C17 at the vector `abc`; the indices 0 (for position 2) and 1 (for
position 1) give `cba`. -/
theorem shuffle_bijection_witness :
    (lit "abc").Nodup ∧
    ((∀ js, validIndices ((lit "abc").length - 1) js = true →
      ∃ out, shuffleBy ((lit "abc").length - 1) js (lit "abc") = some out ∧
        out.Perm (lit "abc")) ∧
    (∀ t : Bytes, t.Perm (lit "abc") →
      ∃! js, validIndices ((lit "abc").length - 1) js = true ∧
        shuffleBy ((lit "abc").length - 1) js (lit "abc") = some t) ∧
    ((lit "abc").permutations.Nodup ∧
      (lit "abc").permutations.length = (lit "abc").length.factorial ∧
      ∀ t : Bytes, t ∈ (lit "abc").permutations ↔ t.Perm (lit "abc")) ∧
    (∀ r : RandState,
      validIndices ((lit "abc").length - 1) (drawnIndices ((lit "abc").length - 1) r) = true ∧
      shuffleVector (lit "abc") r
        = (shuffleBy ((lit "abc").length - 1) (drawnIndices ((lit "abc").length - 1) r)
            (lit "abc")).map
          fun out => (out, { r with pos := r.pos + ((lit "abc").length - 1) })) ∧
    (∀ js, validIndices ((lit "abc").length - 1) js = true →
      ∃ r : RandState, drawnIndices ((lit "abc").length - 1) r = js) ∧
    (∀ (v : Bytes) (i : Nat) (js : List Nat) (out : Bytes),
      shuffleBy i js v = some out → out.Perm v) ∧
    (∀ (v : Bytes) (r : RandState) (out : Bytes × RandState),
      shuffleVector v r = some out → out.1.Perm v)) ∧
    shuffleBy 2 [0, 1] (lit "abc") = some (lit "cba") :=
  ⟨by decide, shuffle_bijection (lit "abc") (by decide), by decide⟩

end PasswordAnalyser
